import Mathlib

/-!
# go-blob2json: the envelope builder

A shallow embedding of `BlobBuilder.NewBlobFromReader` (blob2json.go) together with the
standard-library routines it calls: `io.LimitReader`, `io.ReadAll`,
`base64.StdEncoding.EncodeToString` and `json.Marshal` on a `map[string]string`.

Go strings and byte slices are lists of bytes.  The input stream is explicit state: a
script of the outcomes its `Read` method will produce.
-/

namespace Blob2Json

/-! ## Bytes and strings -/

/-- One octet. -/
abbrev Byte := Fin 256

/-- Go `string` and `[]byte`: a finite sequence of octets, not necessarily valid UTF-8. -/
abbrev GoString := List Byte

/-- The octets of an ASCII literal. -/
def ascii (s : String) : GoString := s.toList.map (fun c => Fin.ofNat c.toNat)

/-! ## Errors and readers -/

/-- Go `error` values: the sentinel `io.EOF`, any other error that a reader can report,
identified by a code, or an error made from a message. -/
inductive GoError where
  | EOF
  | other (code : Nat)
  | message (text : GoString)
  deriving DecidableEq, Repr

/-- One scripted outcome of the underlying reader.  `data bs` makes the bytes `bs` available
with a nil error (a `Read` hands over as many of them as fit its buffer); `fail e` makes one
`Read` return `(0, e)`; `dataFail bs e` makes the bytes `bs` available and the `Read` that
hands over the last of them return the error `e` together with them, `(n, e)` with `n > 0`
(with `e = io.EOF`, data and end of stream in one call). -/
inductive ReadStep where
  | data (bs : List Byte)
  | fail (e : GoError)
  | dataFail (bs : List Byte) (e : GoError)
  deriving DecidableEq, Repr

/-- An `io.Reader` as explicit state: the outcomes not yet delivered.  Once the script is
exhausted every `Read` returns `(0, io.EOF)`. -/
abbrev Reader := List ReadStep

/-- The result of one `Read` call: the bytes written to the buffer and the error. -/
abbrev ReadResult := List Byte × Option GoError

/-- `r.Read(p)` with `len(p) = k`: the bytes transferred, the error, and the reader's next
state. -/
def Reader.Read : Reader → Nat → ReadResult × Reader
  | [], _ => (([], some GoError.EOF), [])
  | ReadStep.fail e :: rest, _ => (([], some e), rest)
  | ReadStep.data bs :: rest, k =>
    if bs.length ≤ k then ((bs, none), rest)
    else ((bs.take k, none), ReadStep.data (bs.drop k) :: rest)
  | ReadStep.dataFail bs e :: rest, k =>
    if bs.length ≤ k then ((bs, some e), rest)
    else ((bs.take k, none), ReadStep.dataFail (bs.drop k) e :: rest)

/-- The bytes a reader still holds, in stream order. -/
def Reader.pending : Reader → List Byte
  | [] => []
  | ReadStep.data bs :: rest => bs ++ Reader.pending rest
  | ReadStep.fail _ :: rest => Reader.pending rest
  | ReadStep.dataFail bs _ :: rest => bs ++ Reader.pending rest

/-- `io.LimitedReader`: the wrapped reader `R` and the number `N` of bytes still allowed. -/
structure LimitedReader where
  R : Reader
  N : Int
  deriving DecidableEq, Repr

/-- `io.LimitReader(r, n)`. -/
def LimitReader (r : Reader) (n : Int) : LimitedReader := ⟨r, n⟩

/-- `(*io.LimitedReader).Read` with `len(p) = k`. -/
def LimitedReader.Read (l : LimitedReader) (k : Nat) : ReadResult × LimitedReader :=
  if l.N ≤ 0 then (([], some GoError.EOF), l)
  else
    let k1 := if (k : Int) > l.N then l.N.toNat else k
    let res := l.R.Read k1
    (res.1, ⟨res.2, l.N - (res.1.1.length : Int)⟩)

/-- Capacity after `append(b, 0)` on a full slice of capacity `cap`: room for at least one
more element; the runtime's surplus is the parameter `slack`. -/
def growCap (slack : Nat → Nat) (cap : Nat) : Nat := cap + 1 + slack cap

/-- The loop of `io.ReadAll`: `b` is the slice filled so far and `cap` its capacity.  The
first argument bounds the number of iterations. -/
def readAllLoop (slack : Nat → Nat) :
    Nat → LimitedReader → List Byte → Nat → Option (ReadResult × LimitedReader)
  | 0, _, _, _ => none
  | fuel + 1, r, b, cap =>
    let res := r.Read (cap - b.length)
    let b1 := b ++ res.1.1
    match res.1.2 with
    | some e => some ((b1, if e = GoError.EOF then none else some e), res.2)
    | none => readAllLoop slack fuel res.2 b1 (if b1.length = cap then growCap slack cap else cap)

/-- Number of `Read` calls that certainly exhaust a script: one per step and per byte. -/
def Reader.weight : Reader → Nat
  | [] => 0
  | ReadStep.data bs :: rest => bs.length + 1 + Reader.weight rest
  | ReadStep.fail _ :: rest => 1 + Reader.weight rest
  | ReadStep.dataFail bs _ :: rest => bs.length + 1 + Reader.weight rest

/-- `io.ReadAll` on a limited reader, starting from an empty slice of capacity 512.  The
iteration bound is the weight of the script plus the final read; `ReadAll_isSome` shows it
is never reached. -/
def ReadAll (slack : Nat → Nat) (r : LimitedReader) : Option (ReadResult × LimitedReader) :=
  readAllLoop slack (r.R.weight + 1) r [] 512

/-! ## Base64 -/

/-- The alphabet `encodeStd` of `base64.StdEncoding`. -/
def encodeStd : List Byte :=
  ascii "ABCDEFGHIJKLMNOPQRSTUVWXYZabcdefghijklmnopqrstuvwxyz0123456789+/"

/-- The padding character `'='`. -/
def padChar : Byte := 61

/-- The lookup `enc.encode[v]`. -/
def encodeChar (v : Nat) : Byte := encodeStd.getD v 0

/-- `(*base64.Encoding).Encode` for `StdEncoding`: three input bytes give four characters;
a remainder of one or two bytes is padded with `'='`. -/
def Encode : List Byte → List Byte
  | s0 :: s1 :: s2 :: rest =>
    let val := s0.val * 65536 + s1.val * 256 + s2.val
    encodeChar (val / 262144 % 64) :: encodeChar (val / 4096 % 64) ::
      encodeChar (val / 64 % 64) :: encodeChar (val % 64) :: Encode rest
  | [s0, s1] =>
    let val := s0.val * 65536 + s1.val * 256
    [encodeChar (val / 262144 % 64), encodeChar (val / 4096 % 64),
      encodeChar (val / 64 % 64), padChar]
  | [s0] =>
    let val := s0.val * 65536
    [encodeChar (val / 262144 % 64), encodeChar (val / 4096 % 64), padChar, padChar]
  | [] => []

/-- `base64.StdEncoding.EncodeToString`. -/
def EncodeToString (src : List Byte) : GoString := Encode src

/-- The reverse lookup `enc.decodeMap[c]`: the six-bit value of an alphabet character. -/
def decodeChar (c : Byte) : Option Nat :=
  let i := encodeStd.indexOf c
  if i < 64 then some i else none

/-- Decoding of the quanta of a padded base64 text: every quantum is four alphabet
characters, except that the last may end in one or two `'='`. -/
def decodeQuanta : List Byte → Option (List Byte)
  | [] => some []
  | [c0, c1, c2, c3] =>
    match decodeChar c0, decodeChar c1 with
    | some v0, some v1 =>
      if c2 = padChar ∧ c3 = padChar then
        some [Fin.ofNat ((v0 * 262144 + v1 * 4096) / 65536)]
      else
        match decodeChar c2 with
        | some v2 =>
          let val := v0 * 262144 + v1 * 4096 + v2 * 64
          if c3 = padChar then some [Fin.ofNat (val / 65536), Fin.ofNat (val / 256)]
          else
            match decodeChar c3 with
            | some v3 =>
              some [Fin.ofNat ((val + v3) / 65536), Fin.ofNat ((val + v3) / 256),
                Fin.ofNat (val + v3)]
            | none => none
        | none => none
    | _, _ => none
  | c0 :: c1 :: c2 :: c3 :: rest =>
    match decodeChar c0, decodeChar c1, decodeChar c2, decodeChar c3 with
    | some v0, some v1, some v2, some v3 =>
      let val := v0 * 262144 + v1 * 4096 + v2 * 64 + v3
      (decodeQuanta rest).map
        (fun tl => Fin.ofNat (val / 65536) :: Fin.ofNat (val / 256) :: Fin.ofNat val :: tl)
    | _, _, _, _ => none
  | _ => none

/-- `base64.StdEncoding.DecodeString`: carriage returns and line feeds are ignored, the
rest is decoded quantum by quantum. -/
def DecodeString (s : GoString) : Option (List Byte) :=
  decodeQuanta (s.filter (fun c => c ≠ 13 ∧ c ≠ 10))

/-! ## UTF-8 decoding (package `unicode/utf8`) -/

/-- The replacement character `utf8.RuneError`. -/
def RuneError : Nat := 0xFFFD

/-- The table `first` of package `utf8`: information about the first byte of an encoding.
`0xF0` marks ASCII, `0xF1` an invalid byte; otherwise the low three bits are the length of
the encoding and the high four bits index `acceptRanges`. -/
def first (b : Byte) : Nat :=
  if b.val < 0x80 then 0xF0
  else if b.val < 0xC2 then 0xF1
  else if b.val < 0xE0 then 0x02
  else if b.val = 0xE0 then 0x13
  else if b.val < 0xED then 0x03
  else if b.val = 0xED then 0x23
  else if b.val < 0xF0 then 0x03
  else if b.val = 0xF0 then 0x34
  else if b.val < 0xF4 then 0x04
  else if b.val = 0xF4 then 0x44
  else 0xF1

/-- The table `acceptRanges`: the lowest and highest value allowed for the second byte. -/
def acceptRanges : Nat → Nat × Nat
  | 0 => (0x80, 0xBF)
  | 1 => (0xA0, 0xBF)
  | 2 => (0x80, 0x9F)
  | 3 => (0x90, 0xBF)
  | 4 => (0x80, 0x8F)
  | _ => (0, 0)

/-- `utf8.DecodeRuneInString`: the first rune of `s` and the width of its encoding;
`(RuneError, 1)` for an invalid encoding and `(RuneError, 0)` for the empty string. -/
def DecodeRuneInString (s : List Byte) : Nat × Nat :=
  match s with
  | [] => (RuneError, 0)
  | s0 :: t =>
    let x := first s0
    if x ≥ 0xF0 then (if x % 2 = 1 then RuneError else s0.val, 1)
    else
      let sz := x % 8
      let accept := acceptRanges (x / 16)
      if s.length < sz then (RuneError, 1)
      else
        match t with
        | [] => (RuneError, 1)
        | s1 :: t1 =>
          if s1.val < accept.1 ∨ accept.2 < s1.val then (RuneError, 1)
          else if sz ≤ 2 then (s0.val % 32 * 64 + s1.val % 64, 2)
          else
            match t1 with
            | [] => (RuneError, 1)
            | s2 :: t2 =>
              if s2.val < 0x80 ∨ 0xBF < s2.val then (RuneError, 1)
              else if sz ≤ 3 then (s0.val % 16 * 4096 + s1.val % 64 * 64 + s2.val % 64, 3)
              else
                match t2 with
                | [] => (RuneError, 1)
                | s3 :: _ =>
                  if s3.val < 0x80 ∨ 0xBF < s3.val then (RuneError, 1)
                  else (s0.val % 8 * 262144 + s1.val % 64 * 4096 + s2.val % 64 * 64
                    + s3.val % 64, 4)

/-! ## JSON encoding of a string map (package `encoding/json`) -/

/-- The digits `hex` used for `\u00XX` escapes. -/
def hex : List Byte := ascii "0123456789abcdef"

/-- The lookup `hex[v]`. -/
def hexChar (v : Nat) : Byte := hex.getD v 0

/-- The table `htmlSafeSet`: the ASCII bytes copied into a JSON string without escaping
when HTML escaping is on: 0x20 to 0x7F except `"`, `&`, `<`, `>` and the backslash. -/
def htmlSafeSet (b : Byte) : Bool :=
  decide (0x20 ≤ b.val) && decide (b.val < 0x80) && decide (b.val ≠ 0x22) &&
    decide (b.val ≠ 0x26) && decide (b.val ≠ 0x3C) && decide (b.val ≠ 0x3E) &&
    decide (b.val ≠ 0x5C)

/-- The escape written by `appendString` for an ASCII byte outside `htmlSafeSet`. -/
def escapeByte (b : Byte) : List Byte :=
  if b.val = 0x5C ∨ b.val = 0x22 then [0x5C, b]
  else if b.val = 0x08 then [0x5C, 0x62]
  else if b.val = 0x0C then [0x5C, 0x66]
  else if b.val = 0x0A then [0x5C, 0x6E]
  else if b.val = 0x0D then [0x5C, 0x72]
  else if b.val = 0x09 then [0x5C, 0x74]
  else [0x5C, 0x75, 0x30, 0x30, hexChar (b.val / 16), hexChar (b.val % 16)]

/-- The loop of `appendString` with `escapeHTML` set, on the part of the source not yet
visited; the pieces of the output are produced in order.  The first argument bounds the
number of iterations; the source's length suffices because every iteration advances. -/
def appendStringLoop : Nat → List Byte → List Byte
  | 0, _ => []
  | _, [] => []
  | fuel + 1, b :: rest =>
    if b.val < 0x80 then
      if htmlSafeSet b then b :: appendStringLoop fuel rest
      else escapeByte b ++ appendStringLoop fuel rest
    else
      let d := DecodeRuneInString ((b :: rest).take 4)
      if d.1 = RuneError ∧ d.2 = 1 then
        ascii "\\ufffd" ++ appendStringLoop fuel ((b :: rest).drop d.2)
      else if d.1 = 0x2028 ∨ d.1 = 0x2029 then
        ascii "\\u202" ++ hexChar (d.1 % 16) :: appendStringLoop fuel ((b :: rest).drop d.2)
      else (b :: rest).take d.2 ++ appendStringLoop fuel ((b :: rest).drop d.2)

/-- `appendString(nil, src, true)`: the JSON string literal for `src` (the short escapes for
backspace and form feed are those of Go 1.22 and later). -/
def appendString (src : GoString) : List Byte :=
  0x22 :: appendStringLoop src.length src ++ [0x22]

/-- Go `map[string]string` with at least an allocated table: keys are unique. -/
abbrev StringMap := AList (fun _ : GoString => GoString)

/-- `len(m)` for a map that may be nil. -/
def mapLen : Option StringMap → Nat
  | none => 0
  | some m => m.entries.length

/-- The entries of a map in the order `mapEncoder` writes them: sorted by key. -/
def sortedEntries (m : StringMap) : List (Sigma (fun _ : GoString => GoString)) :=
  m.entries.insertionSort (fun a b => a.1 ≤ b.1)

/-- The members written by `mapEncoder.encode`, a comma before each but the first. -/
def encodeMembers : Bool → List (Sigma (fun _ : GoString => GoString)) → List Byte
  | _, [] => []
  | isFirst, kv :: rest =>
    (if isFirst then [] else [0x2C]) ++ appendString kv.1 ++ 0x3A :: appendString kv.2
      ++ encodeMembers false rest

/-- `json.Marshal` applied to a `map[string]string`: `null` for a nil map, otherwise an
object with the keys in sorted order.  No error can arise for this type. -/
def jsonMarshal : Option StringMap → Except GoError (List Byte)
  | none => Except.ok (ascii "null")
  | some m => Except.ok (0x7B :: encodeMembers true (sortedEntries m) ++ [0x7D])

/-! ## JSON decoding into a string map (package `encoding/json`)

`json.Unmarshal(data, &m)` for `m` of type `map[string]string`, as one pass over the text:
the scanner's syntax check and the decoder's stores are merged, and any error gives `none`. -/

/-- `utf8.EncodeRune`: the UTF-8 encoding of a rune; surrogates and values beyond
`utf8.MaxRune` are encoded as `RuneError`. -/
def EncodeRune (r : Nat) : List Byte :=
  if r ≤ 0x7F then [Fin.ofNat r]
  else if r ≤ 0x7FF then [Fin.ofNat (0xC0 + r / 64), Fin.ofNat (0x80 + r % 64)]
  else if r > 0x10FFFF ∨ (0xD800 ≤ r ∧ r ≤ 0xDFFF) then [0xEF, 0xBF, 0xBD]
  else if r ≤ 0xFFFF then
    [Fin.ofNat (0xE0 + r / 4096), Fin.ofNat (0x80 + r / 64 % 64), Fin.ofNat (0x80 + r % 64)]
  else
    [Fin.ofNat (0xF0 + r / 262144), Fin.ofNat (0x80 + r / 4096 % 64),
      Fin.ofNat (0x80 + r / 64 % 64), Fin.ofNat (0x80 + r % 64)]

/-- `utf16.DecodeRune`: the code point of a surrogate pair, `U+FFFD` if the pair is not
valid.  The second half is `none` where `getu4` returns -1. -/
def utf16DecodeRune (r1 : Nat) (r2 : Option Nat) : Nat :=
  match r2 with
  | some r2 =>
    if 0xD800 ≤ r1 ∧ r1 < 0xDC00 ∧ 0xDC00 ≤ r2 ∧ r2 < 0xE000 then
      (r1 - 0xD800) * 1024 + (r2 - 0xDC00) + 0x10000
    else 0xFFFD
  | none => 0xFFFD

/-- The value of a hexadecimal digit, in either case. -/
def hexVal (c : Byte) : Option Nat :=
  if 0x30 ≤ c.val ∧ c.val ≤ 0x39 then some (c.val - 0x30)
  else if 0x61 ≤ c.val ∧ c.val ≤ 0x66 then some (c.val - 0x61 + 10)
  else if 0x41 ≤ c.val ∧ c.val ≤ 0x46 then some (c.val - 0x41 + 10)
  else none

/-- `getu4`: the number written by an escape `\uXXXX` at the start of `s`; `none` where
the Go function returns -1. -/
def getu4 (s : List Byte) : Option Nat :=
  match s with
  | c0 :: c1 :: h0 :: h1 :: h2 :: h3 :: _ =>
    if c0.val = 0x5C ∧ c1.val = 0x75 then
      match hexVal h0, hexVal h1, hexVal h2, hexVal h3 with
      | some v0, some v1, some v2, some v3 => some (((v0 * 16 + v1) * 16 + v2) * 16 + v3)
      | _, _, _, _ => none
    else none
  | _ => none

/-- Prefixing the decoded piece `piece` to the result of the rest of a string literal. -/
def consPiece (piece : List Byte) (res : Option (List Byte × List Byte)) :
    Option (List Byte × List Byte) :=
  res.map (fun p => (piece ++ p.1, p.2))

/-- The loop of `unquoteBytes`, run on the text that follows an opening quote: the decoded
string and the text after the closing quote.  Escapes are resolved, control characters and
unknown escapes are errors, and bytes that are not valid UTF-8 are replaced by `U+FFFD`.
The first argument bounds the number of iterations. -/
def unquoteLoop : Nat → List Byte → Option (List Byte × List Byte)
  | 0, _ => none
  | _, [] => none
  | fuel + 1, c :: rest =>
    if c.val = 0x22 then some ([], rest)
    else if c.val = 0x5C then
      match rest with
      | [] => none
      | e :: rest1 =>
        if e.val = 0x22 ∨ e.val = 0x5C ∨ e.val = 0x2F then consPiece [e] (unquoteLoop fuel rest1)
        else if e.val = 0x62 then consPiece [0x08] (unquoteLoop fuel rest1)
        else if e.val = 0x66 then consPiece [0x0C] (unquoteLoop fuel rest1)
        else if e.val = 0x6E then consPiece [0x0A] (unquoteLoop fuel rest1)
        else if e.val = 0x72 then consPiece [0x0D] (unquoteLoop fuel rest1)
        else if e.val = 0x74 then consPiece [0x09] (unquoteLoop fuel rest1)
        else if e.val = 0x75 then
          match getu4 (c :: rest) with
          | none => none
          | some rr =>
            let after := (c :: rest).drop 6
            if 0xD800 ≤ rr ∧ rr < 0xE000 then
              let dec := utf16DecodeRune rr (getu4 after)
              if dec ≠ 0xFFFD then consPiece (EncodeRune dec) (unquoteLoop fuel (after.drop 6))
              else consPiece (EncodeRune 0xFFFD) (unquoteLoop fuel after)
            else consPiece (EncodeRune rr) (unquoteLoop fuel after)
        else none
    else if c.val < 0x20 then none
    else if c.val < 0x80 then consPiece [c] (unquoteLoop fuel rest)
    else
      let d := DecodeRuneInString (c :: rest)
      consPiece (EncodeRune d.1) (unquoteLoop fuel ((c :: rest).drop d.2))

/-- A string literal at the start of `s`: its value and the text after it. -/
def parseString (s : List Byte) : Option (List Byte × List Byte) :=
  match s with
  | c :: rest => if c.val = 0x22 then unquoteLoop rest.length rest else none
  | [] => none

/-- JSON white space: space, tab, carriage return, line feed. -/
def isSpace (c : Byte) : Bool :=
  decide (c.val = 0x20) || decide (c.val = 0x09) || decide (c.val = 0x0D) ||
    decide (c.val = 0x0A)

/-- The text after leading white space. -/
def skipSpace : List Byte → List Byte
  | [] => []
  | c :: rest => if isSpace c then skipSpace rest else c :: rest

/-- A member's value stored into a Go `string`: a string literal, or `null`, which leaves the
zero value.  Any other JSON value is a type error. -/
def parseElem (s : List Byte) : Option (List Byte × List Byte) :=
  match s with
  | [] => none
  | c :: rest =>
    if c.val = 0x22 then unquoteLoop rest.length rest
    else if (c :: rest).take 4 = ascii "null" then some ([], (c :: rest).drop 4)
    else none

/-- The members of an object from the first key on, stored into the map `acc` in order (a
repeated key overwrites); the text after the closing brace is returned with the map.  The
first argument bounds the number of members. -/
def parseMembers : Nat → List Byte → StringMap → Option (StringMap × List Byte)
  | 0, _, _ => none
  | fuel + 1, s, acc =>
    match parseString s with
    | none => none
    | some (key, s1) =>
      match skipSpace s1 with
      | [] => none
      | c1 :: s2 =>
        if c1.val = 0x3A then
          match parseElem (skipSpace s2) with
          | none => none
          | some (val, s3) =>
            match skipSpace s3 with
            | [] => none
            | c2 :: s4 =>
              if c2.val = 0x2C then parseMembers fuel (skipSpace s4) (acc.insert key val)
              else if c2.val = 0x7D then some (acc.insert key val, s4)
              else none
        else none

/-- `json.Unmarshal(data, &m)` with `m` a nil `map[string]string`: `none` on error,
otherwise the map, which stays nil for the text `null`. -/
def jsonUnmarshal (data : List Byte) : Option (Option StringMap) :=
  match skipSpace data with
  | [] => none
  | c :: rest =>
    if c.val = 0x7B then
      match skipSpace rest with
      | [] => none
      | c1 :: rest1 =>
        if c1.val = 0x7D then (if skipSpace rest1 = [] then some (some ∅) else none)
        else
          match parseMembers (c1 :: rest1).length (c1 :: rest1) ∅ with
          | none => none
          | some (m, rest2) => if skipSpace rest2 = [] then some (some m) else none
    else if (c :: rest).take 4 = ascii "null" then
      (if skipSpace ((c :: rest).drop 4) = [] then some none else none)
    else none

/-- The map that decoding builds from a list of members: each stored in turn. -/
def storeAll (acc : StringMap) (l : List (Sigma (fun _ : GoString => GoString))) : StringMap :=
  l.foldl (fun m kv => m.insert kv.1 kv.2) acc

/-- The loop of a validity check: decoding rune by rune never meets an invalid encoding. -/
def validLoop : Nat → List Byte → Bool
  | _, [] => true
  | 0, _ :: _ => false
  | fuel + 1, b :: rest =>
    let d := DecodeRuneInString (b :: rest)
    if d.1 = RuneError ∧ d.2 = 1 then false else validLoop fuel ((b :: rest).drop d.2)

/-- What `utf8.ValidString` reports: `s` consists of valid UTF-8 encodings only. -/
def ValidString (s : GoString) : Bool := validLoop s.length s

/-- The value bound to a key in a map that may be nil. -/
def mapLookup (k : GoString) : Option StringMap → Option GoString
  | none => none
  | some m => m.lookup k

/-! ## The envelope and its builder (blob2json.go) -/

/-- Go `time.Time`, as the civil date and time that it denotes in its location: what its
methods `Year`, `Month`, `Day`, `Hour`, `Minute`, `Second` and `Nanosecond` return, and the
offset of its zone in seconds east of UTC. -/
structure Time where
  year : Int
  month : Nat
  day : Nat
  hour : Nat
  minute : Nat
  second : Nat
  nanosecond : Nat
  offset : Int
  deriving DecidableEq, Repr

/-- The output record `Blob`.  `Metadata` is a `json.RawMessage` (nil when unset);
`ContentLength` and `LastModified` are pointers (nil when unset). -/
structure Blob where
  Name : GoString
  ContentType : GoString
  ContentEncoding : GoString
  ContentTransferEncoding : GoString
  Body : GoString
  Metadata : Option (List Byte)
  ContentLength : Option Int
  LastModified : Option Time
  deriving DecidableEq, Repr

/-- The configuration `BlobBuilder`.  `Metadata` is `none` for a nil map. -/
structure BlobBuilder where
  ContentType : GoString
  ContentEncoding : GoString
  MaxBytes : Int
  Metadata : Option StringMap
  LastModified : Option Time

/-- `(*BlobBuilder).NewBlobFromReader`.  The result is Go's `(*Blob, error)` pair as an
`Except`, together with the state in which the call leaves the reader `r`.  The outer
`Option` is `none` only if `ReadAll` exceeded its iteration bound. -/
def NewBlobFromReader (slack : Nat → Nat) (b : BlobBuilder) (r : Reader) (name : GoString) :
    Option (Except GoError Blob × Reader) :=
  let reader := LimitReader r b.MaxBytes
  match ReadAll slack reader with
  | none => none
  | some ((_, some err), reader1) => some (Except.error err, reader1.R)
  | some ((data, none), reader1) =>
    let encodedBody := EncodeToString data
    let contentLength : Int := data.length
    let blob : Blob :=
      { Name := name
        ContentType := b.ContentType
        ContentEncoding := b.ContentEncoding
        ContentTransferEncoding := ascii "base64"
        Body := encodedBody
        Metadata := none
        ContentLength := some contentLength
        LastModified := b.LastModified }
    if mapLen b.Metadata > 0 then
      match jsonMarshal b.Metadata with
      | Except.error err => some (Except.error err, reader1.R)
      | Except.ok metaJSON => some (Except.ok { blob with Metadata := some metaJSON }, reader1.R)
    else some (Except.ok blob, reader1.R)

/-! ## Serialised shape of the envelope

The struct encoder of `encoding/json` writes one member per field of `Blob`, in declaration
order, under the name given by the field's tag, and skips a field tagged `omitempty` whose
value is empty: a slice of length zero or a nil pointer. -/

/-- The keys of the JSON object that `json.Marshal` writes for a `Blob`. -/
def Blob.jsonKeys (blob : Blob) : List GoString :=
  [ascii "name", ascii "content_type", ascii "content_encoding",
    ascii "content_transfer_encoding", ascii "body"]
  ++ (if (blob.Metadata.getD []).length = 0 then [] else [ascii "metadata"])
  ++ (if blob.ContentLength.isNone then [] else [ascii "content_length"])
  ++ (if blob.LastModified.isNone then [] else [ascii "last_modified"])

/-! ## Streams as a whole -/

/-- The bytes a reader delivers up to and including the read that first reports anything
but a nil error: its content up to the end of the stream or up to the first read error. -/
def Reader.content : Reader → List Byte
  | [] => []
  | ReadStep.data bs :: rest => bs ++ Reader.content rest
  | ReadStep.fail _ :: _ => []
  | ReadStep.dataFail bs _ :: _ => bs

/-- The part of `Reader.content` that is delivered by reads with a nil error: the bytes that
precede the step which ends the content. -/
def Reader.quiet : Reader → List Byte
  | [] => []
  | ReadStep.data bs :: rest => bs ++ Reader.quiet rest
  | ReadStep.fail _ :: _ => []
  | ReadStep.dataFail _ _ :: _ => []

/-- The read error that ends `Reader.content`, if the stream ends with one rather than with
end of stream (`io.EOF` or an exhausted script). -/
def Reader.outcome : Reader → Option GoError
  | [] => none
  | ReadStep.data _ :: rest => Reader.outcome rest
  | ReadStep.fail e :: _ => if e = GoError.EOF then none else some e
  | ReadStep.dataFail _ e :: _ => if e = GoError.EOF then none else some e

/-- What `io.ReadAll` takes in total from a script when `n` more bytes are allowed: the
bytes, the error it ends with (nil at end of stream or at the limit) and the script left
over. -/
def Reader.drain : Reader → Nat → ReadResult × Reader
  | [], _ => (([], none), [])
  | ReadStep.fail e :: rest, n =>
    if n = 0 then (([], none), ReadStep.fail e :: rest)
    else (([], if e = GoError.EOF then none else some e), rest)
  | ReadStep.data bs :: rest, n =>
    if n = 0 then (([], none), ReadStep.data bs :: rest)
    else if bs.length ≤ n then
      let res := Reader.drain rest (n - bs.length)
      ((bs ++ res.1.1, res.1.2), res.2)
    else ((bs.take n, none), ReadStep.data (bs.drop n) :: rest)
  | ReadStep.dataFail bs e :: rest, n =>
    if n = 0 then (([], none), ReadStep.dataFail bs e :: rest)
    else if bs.length ≤ n then ((bs, if e = GoError.EOF then none else some e), rest)
    else ((bs.take n, none), ReadStep.dataFail (bs.drop n) e :: rest)

/-- What a successful multi-byte decoding of the start of `s` to the rune `c` of width `n`
tells: the width is within `s`, encoding `c` gives those bytes back, the decoding does not
depend on what follows them, and none of them is ASCII. -/
structure DecodedOK (s : List Byte) (c n : Nat) : Prop where
  two_le : 2 ≤ n
  le_len : n ≤ s.length
  encode : EncodeRune c = s.take n
  stable : ∀ X : List Byte, DecodeRuneInString (s.take n ++ X) = (c, n)
  high : ∀ x ∈ s.take n, 0x80 ≤ x.val
  le_four : n ≤ 4

/-! ## Serialisation of the envelope (packages `encoding/json`, `strconv`, `time`)

`json.Marshal` on a `Blob` runs the struct encoder: for each field in declaration order,
unless the field is tagged `omitempty` and its value is empty, it writes the key given by the
tag and the encoding of the value.  The encoding of a value can fail, and then `json.Marshal`
returns the error and no text. -/

/-- `strconv.AppendInt(nil, i, 10)`: the decimal text of an integer. -/
def formatInt (i : Int) : List Byte :=
  if i < 0 then 0x2D :: (Nat.toDigits 10 (-i).toNat).map (fun c => Fin.ofNat c.toNat)
  else (Nat.toDigits 10 i.toNat).map (fun c => Fin.ofNat c.toNat)

/-- The helper `appendInt` of package `time` for a value that is not negative: its decimal
digits, padded with zeros on the left to `width`. -/
def appendInt (x width : Nat) : List Byte :=
  List.replicate (width - (Nat.toDigits 10 x).length) 0x30 ++
    (Nat.toDigits 10 x).map (fun c => Fin.ofNat c.toNat)

/-- The helper `appendNano` of package `time` for the layout `.999999999`: nothing for zero,
otherwise a dot and the nine digits without their trailing zeros. -/
def appendNano (nanosec : Nat) : List Byte :=
  if nanosec = 0 then []
  else 0x2E :: ((appendInt nanosec 9).reverse.dropWhile (fun c => c = 0x30)).reverse

/-- The zone of an RFC 3339 text: `Z` for offset zero, otherwise sign, hours and minutes of
the offset, which is first cut to whole minutes towards zero. -/
def appendZone (offset : Int) : List Byte :=
  if offset = 0 then [0x5A]
  else
    (if offset ≤ -60 then 0x2D else 0x2B) :: appendInt (offset.natAbs / 60 / 60) 2 ++
      0x3A :: appendInt (offset.natAbs / 60 % 60) 2

/-- `Time.MarshalJSON` (Go 1.20 and later): the quoted RFC 3339 text with nanoseconds, or an
error when the year is outside 0..9999 or the hours of the zone offset are outside 0..23. -/
def Time.MarshalJSON (t : Time) : Except GoError (List Byte) :=
  if t.year < 0 ∨ t.year > 9999 then
    Except.error (GoError.message (ascii "Time.MarshalJSON: year outside of range [0,9999]"))
  else if t.offset ≠ 0 ∧ t.offset.natAbs / 60 / 60 ≥ 24 then
    Except.error
      (GoError.message (ascii "Time.MarshalJSON: timezone hour outside of range [0,23]"))
  else
    Except.ok (0x22 :: (appendInt t.year.toNat 4 ++ 0x2D :: appendInt t.month 2 ++
      0x2D :: appendInt t.day 2 ++ 0x54 :: appendInt t.hour 2 ++ 0x3A :: appendInt t.minute 2 ++
      0x3A :: appendInt t.second 2 ++ appendNano t.nanosecond ++ appendZone t.offset) ++ [0x22])

/-- The value of a field of `Blob`, by its Go type: `string`, `json.RawMessage`, `*int64`,
`*time.Time`. -/
inductive FieldValue where
  | str (s : GoString)
  | raw (m : Option (List Byte))
  | int64Ptr (p : Option Int)
  | timePtr (p : Option Time)

/-- One field as the struct encoder sees it: the key from its tag, whether the tag says
`omitempty`, and its value. -/
structure Field where
  name : GoString
  omitEmpty : Bool
  value : FieldValue

/-- The function `isEmptyValue` of `encoding/json`: a string or slice of length zero, a nil
pointer. -/
def isEmptyValue : FieldValue → Bool
  | FieldValue.str s => decide (s.length = 0)
  | FieldValue.raw m => decide ((m.getD []).length = 0)
  | FieldValue.int64Ptr p => p.isNone
  | FieldValue.timePtr p => p.isNone

/-- The encoding of a field's value.  A string is quoted by `appendString`; a nil pointer
is `null`; an integer is its decimal text; a `json.RawMessage` and a `time.Time` marshal
themselves (a nil raw message as `null`) and the text they return is passed through
`compact`.  The parameter `compact` stands for `appendCompact` with HTML escaping, whose
scanner is not part of this development: it returns an error for a text that is not valid
JSON. -/
def encodeValue (compact : List Byte → Except GoError (List Byte)) :
    FieldValue → Except GoError (List Byte)
  | FieldValue.str s => Except.ok (appendString s)
  | FieldValue.raw none => compact (ascii "null")
  | FieldValue.raw (some m) => compact m
  | FieldValue.int64Ptr none => Except.ok (ascii "null")
  | FieldValue.int64Ptr (some n) => Except.ok (formatInt n)
  | FieldValue.timePtr none => Except.ok (ascii "null")
  | FieldValue.timePtr (some t) =>
    match t.MarshalJSON with
    | Except.error err => Except.error err
    | Except.ok text => compact text

/-- The struct encoder on a list of fields: the members `(key, encoded value)` of the object
that it writes, in order, or the first error of a value's encoding. -/
def encodeFields (compact : List Byte → Except GoError (List Byte)) :
    List Field → Except GoError (List (GoString × List Byte))
  | [] => Except.ok []
  | f :: rest =>
    if f.omitEmpty && isEmptyValue f.value then encodeFields compact rest
    else
      match encodeValue compact f.value with
      | Except.error err => Except.error err
      | Except.ok v =>
        match encodeFields compact rest with
        | Except.error err => Except.error err
        | Except.ok members => Except.ok ((f.name, v) :: members)

/-- The fields of `Blob` with their struct tags (blob2json.go, lines 12 to 21). -/
def Blob.fields (blob : Blob) : List Field :=
  [ { name := ascii "name", omitEmpty := false, value := FieldValue.str blob.Name },
    { name := ascii "content_type", omitEmpty := false,
      value := FieldValue.str blob.ContentType },
    { name := ascii "content_encoding", omitEmpty := false,
      value := FieldValue.str blob.ContentEncoding },
    { name := ascii "content_transfer_encoding", omitEmpty := false,
      value := FieldValue.str blob.ContentTransferEncoding },
    { name := ascii "body", omitEmpty := false, value := FieldValue.str blob.Body },
    { name := ascii "metadata", omitEmpty := true, value := FieldValue.raw blob.Metadata },
    { name := ascii "content_length", omitEmpty := true,
      value := FieldValue.int64Ptr blob.ContentLength },
    { name := ascii "last_modified", omitEmpty := true,
      value := FieldValue.timePtr blob.LastModified } ]

/-- `json.Marshal(blob)`: the members of the JSON object that it writes, in order (the text
is an opening brace, the members as `"key":value` separated by commas, a closing brace), or
the error that it returns instead. -/
def marshalBlob (compact : List Byte → Except GoError (List Byte)) (blob : Blob) :
    Except GoError (List (GoString × List Byte)) :=
  encodeFields compact blob.fields

/-! ## The command-line adapter (cmd/blob2json/main.go) -/

/-- `strings.Index(s, sep)` for a separator of one byte: the position of its first
occurrence, `none` where Go returns -1. -/
def Index : GoString → Byte → Option Nat
  | [], _ => none
  | b :: rest, sep => if b = sep then some 0 else (Index rest sep).map (fun i => i + 1)

/-- The loop of `genSplit` with `k` cuts still allowed: cut at the first separator, go on
with what follows it, and end with the remainder. -/
def genSplitLoop : Nat → GoString → Byte → List GoString
  | 0, s, _ => [s]
  | k + 1, s, sep =>
    match Index s sep with
    | none => [s]
    | some m => s.take m :: genSplitLoop k (s.drop (m + 1)) sep

/-- `strings.SplitN(s, sep, n)` for a separator of one byte and `n ≥ 0`: at most `n`
pieces, the last one unsplit. -/
def SplitN (s : GoString) (sep : Byte) (n : Nat) : List GoString :=
  if n = 0 then []
  else genSplitLoop ((if n > s.length + 1 then s.length + 1 else n) - 1) s sep

/-- `(*metadataFlag).Set` on a map made with `make`: the error it returns (its message, or
`none` for nil) and the map afterwards. -/
def metadataFlag.Set (m : StringMap) (value : GoString) : Option GoString × StringMap :=
  let parts := SplitN value 0x3D 2
  if parts.length ≠ 2 then (some (ascii "invalid metadata format; expected key=value"), m)
  else (none, m.insert (parts.getD 0 []) (parts.getD 1 []))

/-! ## Fixtures from blob2json_test.go -/

/-- The builder of `TestBlobBuilder_PlainText`. -/
def plainTextBuilder : BlobBuilder :=
  { ContentType := ascii "text/plain", ContentEncoding := [], MaxBytes := 1024,
    Metadata := none, LastModified := none }

/-- The builder of `TestBlobBuilder_MaxBytes`. -/
def maxBytesBuilder : BlobBuilder :=
  { ContentType := ascii "text/plain", ContentEncoding := [], MaxBytes := 10,
    Metadata := none, LastModified := none }

/-- The input of `TestBlobBuilder_MaxBytes`, 47 bytes. -/
def longInput : GoString := ascii "This is a long string that should be truncated."

/-- A builder whose limit is negative. -/
def negativeLimitBuilder : BlobBuilder :=
  { ContentType := ascii "text/plain", ContentEncoding := [], MaxBytes := -1,
    Metadata := none, LastModified := none }

/-- The mapping of `TestBlobBuilder_WithMetadata`. -/
def testMetadata : StringMap :=
  AList.insert (ascii "source") (ascii "test") (AList.insert (ascii "user") (ascii "gemini") ∅)

/-- A timestamp. -/
def testTime : Time :=
  { year := 2023, month := 11, day := 14, hour := 22, minute := 13, second := 20,
    nanosecond := 500000000, offset := 32400 }

/-- A builder with metadata, a content encoding and a last-modified time. -/
def typedBuilder : BlobBuilder :=
  { ContentType := ascii "text/plain", ContentEncoding := ascii "gzip", MaxBytes := 4,
    Metadata := some testMetadata, LastModified := some testTime }

/-- A stream that delivers `some typed data` in two pieces and then ends. -/
def typedStream : Reader := [ReadStep.data (ascii "some "), ReadStep.data (ascii "typed data")]

/-- The envelope that `typedBuilder` makes of `typedStream` under the name `typed.txt`. -/
def typedBlob : Blob :=
  { Name := ascii "typed.txt", ContentType := ascii "text/plain",
    ContentEncoding := ascii "gzip", ContentTransferEncoding := ascii "base64",
    Body := ascii "c29tZQ==",
    Metadata := some (ascii "\x7b\"source\":\"test\",\"user\":\"gemini\"\x7d"),
    ContentLength := some 4, LastModified := some testTime }

/-- The state in which that call leaves `typedStream`. -/
def typedStreamAfter : Reader := [ReadStep.data (ascii " "), ReadStep.data (ascii "typed data")]

/-- A stream that reports a read error after two bytes. -/
def faultyStream : Reader := [ReadStep.data (ascii "ab"), ReadStep.fail (GoError.other 5)]

/-- A mapping whose value is the single byte 0xFF, which is not valid UTF-8. -/
def invalidUtf8Metadata : StringMap := AList.insert (ascii "k") [0xFF] ∅

/-- A builder with that mapping. -/
def invalidUtf8Builder : BlobBuilder :=
  { ContentType := ascii "text/plain", ContentEncoding := [], MaxBytes := 1024,
    Metadata := some invalidUtf8Metadata, LastModified := none }

/-- A builder with the mapping of `TestBlobBuilder_WithMetadata`. -/
def metadataBuilder : BlobBuilder :=
  { ContentType := ascii "application/octet-stream", ContentEncoding := [], MaxBytes := 1024,
    Metadata := some testMetadata, LastModified := none }

/-- The envelope that `plainTextBuilder` makes of an empty stream under the name
`empty.txt`. -/
def emptyBlob : Blob :=
  { Name := ascii "empty.txt", ContentType := ascii "text/plain", ContentEncoding := [],
    ContentTransferEncoding := ascii "base64", Body := [], Metadata := none,
    ContentLength := some 0, LastModified := none }

/-- A stream whose first read reports an error. -/
def brokenStream : Reader := [ReadStep.fail (GoError.other 7), ReadStep.data (ascii "late")]

/-- The envelope that `negativeLimitBuilder` makes of any stream under the name `x`. -/
def nothingReadBlob : Blob :=
  { Name := ascii "x", ContentType := ascii "text/plain", ContentEncoding := [],
    ContentTransferEncoding := ascii "base64", Body := [], Metadata := none,
    ContentLength := some 0, LastModified := none }

/-- A builder with the limit of `typedBuilder` and nothing else in common with it. -/
def bareBuilder : BlobBuilder :=
  { ContentType := ascii "application/octet-stream", ContentEncoding := [], MaxBytes := 4,
    Metadata := none, LastModified := none }

/-- The envelope that `bareBuilder` makes of the bytes `some typed data` delivered in one
piece, under the name `bare.bin`. -/
def bareBlob : Blob :=
  { Name := ascii "bare.bin", ContentType := ascii "application/octet-stream",
    ContentEncoding := [], ContentTransferEncoding := ascii "base64",
    Body := ascii "c29tZQ==", Metadata := none, ContentLength := some 4,
    LastModified := none }

/-- A stream that delivers two bytes and reports a read error together with the second:
its only `Read` returns `(2, err)`. -/
def errorWithBytesStream : Reader := [ReadStep.dataFail (ascii "ab") (GoError.other 5)]

/-- A builder whose limit is two bytes. -/
def twoBytesBuilder : BlobBuilder :=
  { ContentType := ascii "text/plain", ContentEncoding := [], MaxBytes := 2,
    Metadata := none, LastModified := none }

/-- A compaction that leaves every text as it is. -/
def keepText : List Byte → Except GoError (List Byte) := fun text => Except.ok text

/-- The first instant of the year 10000, in UTC: `time.Date(10000, 1, 1, 0, 0, 0, 0,
time.UTC)`. -/
def farFutureTime : Time :=
  { year := 10000, month := 1, day := 1, hour := 0, minute := 0, second := 0,
    nanosecond := 0, offset := 0 }

/-- A builder whose last-modified time is `farFutureTime`. -/
def farFutureBuilder : BlobBuilder :=
  { ContentType := ascii "text/plain", ContentEncoding := [], MaxBytes := 1024,
    Metadata := none, LastModified := some farFutureTime }

/-- The envelope that `farFutureBuilder` makes of an empty stream under the name `x`. -/
def farFutureBlob : Blob :=
  { Name := ascii "x", ContentType := ascii "text/plain", ContentEncoding := [],
    ContentTransferEncoding := ascii "base64", Body := [], Metadata := none,
    ContentLength := some 0, LastModified := some farFutureTime }

/-- The members of the object that `json.Marshal` writes for `emptyBlob`. -/
def emptyBlobMembers : List (GoString × List Byte) :=
  [(ascii "name", ascii "\"empty.txt\""), (ascii "content_type", ascii "\"text/plain\""),
    (ascii "content_encoding", ascii "\"\""),
    (ascii "content_transfer_encoding", ascii "\"base64\""), (ascii "body", ascii "\"\""),
    (ascii "content_length", ascii "0")]

/-- Capacity growth with no surplus, for concrete runs. -/
def noSlack : Nat → Nat := fun _ => 0

/-! ## Reading: the loop of `io.ReadAll` computes `Reader.drain` -/

theorem drain_zero (r : Reader) : Reader.drain r 0 = (([], none), r) := by
  cases r with
  | nil => rfl
  | cons s rest => cases s <;> simp [Reader.drain]

theorem readAllLoop_eq (slack : Nat → Nat) :
    ∀ (fuel : Nat) (r : Reader) (N : Int) (b : List Byte) (cap : Nat),
      b.length < cap → r.weight + 1 ≤ fuel →
      readAllLoop slack fuel ⟨r, N⟩ b cap =
        some ((b ++ (r.drain N.toNat).1.1, (r.drain N.toNat).1.2),
          ⟨(r.drain N.toNat).2, N - ((r.drain N.toNat).1.1.length : Int)⟩) := by
  intro fuel
  induction fuel with
  | zero => intro r N b cap _ h; omega
  | succ fuel ih =>
    intro r N b cap hb hw
    by_cases hN : N ≤ 0
    · have h0 : N.toNat = 0 := by omega
      simp [readAllLoop, LimitedReader.Read, hN, h0, drain_zero]
    · have hn : N.toNat ≠ 0 := by omega
      cases r with
      | nil => simp [readAllLoop, LimitedReader.Read, hN, Reader.Read, Reader.drain]
      | cons s rest =>
        cases s with
        | fail e =>
          simp [readAllLoop, LimitedReader.Read, hN, Reader.Read, Reader.drain, hn]
        | data bs =>
          simp only [Reader.weight] at hw
          obtain ⟨k1, hk1, hk1pos, hk1n, hk1cap⟩ :
              ∃ k1 : Nat, (if ((cap - b.length : Nat) : Int) > N then N.toNat
                else cap - b.length) = k1 ∧ 0 < k1 ∧ k1 ≤ N.toNat ∧ k1 ≤ cap - b.length := by
            refine ⟨_, rfl, ?_, ?_, ?_⟩ <;> split <;> omega
          by_cases hle : bs.length ≤ k1
          · have hle2 : bs.length ≤ N.toNat := by omega
            have hih := ih rest (N - (bs.length : Int)) (b ++ bs)
              (if (b ++ bs).length = cap then growCap slack cap else cap)
              (by simp only [List.length_append, growCap]; split <;> omega) (by omega)
            have ht : (N - (bs.length : Int)).toNat = N.toNat - bs.length := by omega
            rw [ht] at hih
            simp only [readAllLoop, LimitedReader.Read, hN, if_false, hk1, Reader.Read, hle,
              if_true, Reader.drain, hn, hle2]
            rw [hih]
            simp only [List.append_assoc, List.length_append, Nat.cast_add, sub_sub]
          · have hlt : k1 < bs.length := by omega
            have hih := ih (ReadStep.data (bs.drop k1) :: rest) (N - (k1 : Int))
              (b ++ bs.take k1)
              (if (b ++ bs.take k1).length = cap then growCap slack cap else cap)
              (by simp only [List.length_append, List.length_take, growCap]; split <;> omega)
              (by simp only [Reader.weight, List.length_drop]; omega)
            have ht : (N - (k1 : Int)).toNat = N.toNat - k1 := by omega
            have hlen : (bs.take k1).length = k1 := by
              rw [List.length_take]; omega
            rw [ht] at hih
            simp only [readAllLoop, LimitedReader.Read, hN, if_false, hk1, Reader.Read, hle,
              hlen]
            rw [hih]
            simp only [Reader.drain, hn, if_false, List.length_drop]
            by_cases hz : N.toNat - k1 = 0
            · have hnk : N.toNat = k1 := by omega
              have hnl : ¬ bs.length ≤ N.toNat := by omega
              simp [hz, hle, hnk, hlen]
            · by_cases hfit : bs.length ≤ N.toNat
              · have hfit2 : bs.length - k1 ≤ N.toNat - k1 := by omega
                have he : N.toNat - k1 - (bs.length - k1) = N.toNat - bs.length := by omega
                simp only [hz, hfit, hfit2, if_true, if_false, he, List.length_append,
                  List.length_drop, Nat.cast_add, sub_sub, ← List.append_assoc,
                  List.take_append_drop]
                have e3 : b ++ bs.take k1 ++ bs.drop k1 = b ++ bs := by
                  rw [List.append_assoc, List.take_append_drop]
                have e4 : ((bs.length - k1 : Nat) : Int) = (bs.length : Int) - (k1 : Int) := by
                  omega
                rw [e3, e4]
                congr 3
                omega
              · have hfit2 : ¬ bs.length - k1 ≤ N.toNat - k1 := by omega
                have e1 : bs.take k1 ++ (bs.drop k1).take (N.toNat - k1) = bs.take N.toNat := by
                  have := List.take_add bs k1 (N.toNat - k1)
                  rw [← this]; congr 1; omega
                have e2 : (bs.drop k1).drop (N.toNat - k1) = bs.drop N.toNat := by
                  rw [List.drop_drop]; congr 1; omega
                simp only [hz, hfit, hfit2, if_false, e2, List.append_assoc, e1]
                congr 3
                simp only [List.length_take, List.length_drop]
                omega
        | dataFail bs e =>
          simp only [Reader.weight] at hw
          obtain ⟨k1, hk1, hk1pos, hk1n, hk1cap⟩ :
              ∃ k1 : Nat, (if ((cap - b.length : Nat) : Int) > N then N.toNat
                else cap - b.length) = k1 ∧ 0 < k1 ∧ k1 ≤ N.toNat ∧ k1 ≤ cap - b.length := by
            refine ⟨_, rfl, ?_, ?_, ?_⟩ <;> split <;> omega
          by_cases hle : bs.length ≤ k1
          · have hle2 : bs.length ≤ N.toNat := by omega
            simp only [readAllLoop, LimitedReader.Read, hN, if_false, hk1, Reader.Read, hle,
              if_true, Reader.drain, hn, hle2]
          · have hlt : k1 < bs.length := by omega
            have hih := ih (ReadStep.dataFail (bs.drop k1) e :: rest) (N - (k1 : Int))
              (b ++ bs.take k1)
              (if (b ++ bs.take k1).length = cap then growCap slack cap else cap)
              (by simp only [List.length_append, List.length_take, growCap]; split <;> omega)
              (by simp only [Reader.weight, List.length_drop]; omega)
            have ht : (N - (k1 : Int)).toNat = N.toNat - k1 := by omega
            have hlen : (bs.take k1).length = k1 := by
              rw [List.length_take]; omega
            rw [ht] at hih
            simp only [readAllLoop, LimitedReader.Read, hN, if_false, hk1, Reader.Read, hle,
              hlen]
            rw [hih]
            simp only [Reader.drain, hn, if_false, List.length_drop]
            by_cases hz : N.toNat - k1 = 0
            · have hnk : N.toNat = k1 := by omega
              simp [hz, hle, hnk, hlen]
            · by_cases hfit : bs.length ≤ N.toNat
              · have hfit2 : bs.length - k1 ≤ N.toNat - k1 := by omega
                have e3 : b ++ bs.take k1 ++ bs.drop k1 = b ++ bs := by
                  rw [List.append_assoc, List.take_append_drop]
                have e4 : ((bs.length - k1 : Nat) : Int) = (bs.length : Int) - (k1 : Int) := by
                  omega
                simp only [hz, hfit, hfit2, if_true, if_false, List.length_drop, sub_sub]
                rw [e3, e4]
                congr 3
                omega
              · have hfit2 : ¬ bs.length - k1 ≤ N.toNat - k1 := by omega
                have e1 : bs.take k1 ++ (bs.drop k1).take (N.toNat - k1) = bs.take N.toNat := by
                  have := List.take_add bs k1 (N.toNat - k1)
                  rw [← this]; congr 1; omega
                have e2 : (bs.drop k1).drop (N.toNat - k1) = bs.drop N.toNat := by
                  rw [List.drop_drop]; congr 1; omega
                simp only [hz, hfit, hfit2, if_false, e2, List.append_assoc, e1]
                congr 3
                simp only [List.length_take, List.length_drop]
                omega

theorem ReadAll_eq (slack : Nat → Nat) (r : Reader) (N : Int) :
    ReadAll slack (LimitReader r N) =
      some (((r.drain N.toNat).1.1, (r.drain N.toNat).1.2),
        ⟨(r.drain N.toNat).2, N - ((r.drain N.toNat).1.1.length : Int)⟩) := by
  have h := readAllLoop_eq slack (r.weight + 1) r N [] 512 (by simp) (le_refl _)
  simpa [ReadAll, LimitReader] using h

/-- The loop of `io.ReadAll` always finishes within its iteration bound. -/
theorem ReadAll_isSome (slack : Nat → Nat) (l : LimitedReader) :
    (ReadAll slack l).isSome = true := by
  have h := ReadAll_eq slack l.R l.N
  simp only [LimitReader] at h
  rw [h]
  rfl

theorem drain_pending (r : Reader) :
    ∀ n : Nat, r.pending = (r.drain n).1.1 ++ (r.drain n).2.pending := by
  induction r with
  | nil => intro n; simp [Reader.drain, Reader.pending]
  | cons s rest ih =>
    intro n
    cases s with
    | fail e =>
      by_cases hn : n = 0 <;> simp [Reader.drain, Reader.pending, hn]
    | data bs =>
      by_cases hn : n = 0
      · simp [Reader.drain, Reader.pending, hn]
      · by_cases hle : bs.length ≤ n
        · simp only [Reader.drain, hn, hle, if_true, if_false, Reader.pending,
            List.append_assoc]
          rw [← ih]
        · simp only [Reader.drain, hn, hle, if_false, Reader.pending]
          rw [← List.append_assoc, List.take_append_drop]
    | dataFail bs e =>
      by_cases hn : n = 0
      · simp [Reader.drain, Reader.pending, hn]
      · by_cases hle : bs.length ≤ n
        · simp only [Reader.drain, hn, hle, if_true, if_false, Reader.pending]
        · simp only [Reader.drain, hn, hle, if_false, Reader.pending]
          rw [← List.append_assoc, List.take_append_drop]

theorem drain_data (r : Reader) :
    ∀ n : Nat, (r.drain n).1.1 = r.content.take n := by
  induction r with
  | nil => intro n; simp [Reader.drain, Reader.content]
  | cons s rest ih =>
    intro n
    cases s with
    | fail e =>
      by_cases hn : n = 0 <;> simp [Reader.drain, Reader.content, hn]
    | data bs =>
      by_cases hn : n = 0
      · simp [Reader.drain, Reader.content, hn]
      · by_cases hle : bs.length ≤ n
        · simp only [Reader.drain, hn, hle, if_true, if_false, Reader.content, ih,
            List.take_append_eq_append_take, List.take_of_length_le hle]
        · have hlt : n ≤ bs.length := by omega
          simp only [Reader.drain, hn, hle, if_false, Reader.content,
            List.take_append_eq_append_take]
          simp [Nat.sub_eq_zero_of_le hlt]
    | dataFail bs e =>
      by_cases hn : n = 0
      · simp [Reader.drain, Reader.content, hn]
      · by_cases hle : bs.length ≤ n
        · simp only [Reader.drain, hn, hle, if_true, if_false, Reader.content,
            List.take_of_length_le hle]
        · simp only [Reader.drain, hn, hle, if_false, Reader.content]

/-- The error with which a limited read-all ends: the stream's read error, if the read that
reports it starts before the limit and its own bytes stay within the limit. -/
theorem drain_err (r : Reader) :
    ∀ n : Nat, (r.drain n).1.2 =
      if r.quiet.length < n ∧ r.content.length ≤ n then r.outcome else none := by
  induction r with
  | nil => intro n; simp [Reader.drain, Reader.outcome]
  | cons s rest ih =>
    intro n
    cases s with
    | fail e =>
      by_cases hn : n = 0
      · simp [Reader.drain, Reader.content, Reader.quiet, hn]
      · have : 0 < n := by omega
        simp [Reader.drain, Reader.content, Reader.quiet, Reader.outcome, hn, this]
    | data bs =>
      by_cases hn : n = 0
      · simp [Reader.drain, Reader.content, Reader.quiet, hn]
      · by_cases hle : bs.length ≤ n
        · simp only [Reader.drain, hn, hle, if_true, if_false, Reader.content, Reader.quiet,
            ih, Reader.outcome, List.length_append]
          by_cases h2 : (Reader.quiet rest).length < n - bs.length ∧
              (Reader.content rest).length ≤ n - bs.length
          · have : bs.length + (Reader.quiet rest).length < n ∧
                bs.length + (Reader.content rest).length ≤ n := by omega
            rw [if_pos h2, if_pos this]
          · have : ¬ (bs.length + (Reader.quiet rest).length < n ∧
                bs.length + (Reader.content rest).length ≤ n) := by omega
            rw [if_neg h2, if_neg this]
        · have : ¬ (bs.length + (Reader.quiet rest).length < n ∧
              bs.length + (Reader.content rest).length ≤ n) := by omega
          simp only [Reader.drain, hn, hle, if_false, Reader.content, Reader.quiet,
            List.length_append]
          rw [if_neg this]
    | dataFail bs e =>
      by_cases hn : n = 0
      · simp [Reader.drain, Reader.content, Reader.quiet, hn]
      · by_cases hle : bs.length ≤ n
        · have hpos : 0 < n := by omega
          simp [Reader.drain, hn, hle, Reader.content, Reader.quiet, Reader.outcome, hpos]
        · simp [Reader.drain, hn, hle, Reader.content, Reader.quiet]

/-! ## The builder in closed form -/

theorem jsonMarshal_ok (m : Option StringMap) : ∃ js, jsonMarshal m = Except.ok js := by
  cases m <;> exact ⟨_, rfl⟩

theorem NewBlobFromReader_error (slack : Nat → Nat) (b : BlobBuilder) (r : Reader)
    (name : GoString) (e : GoError) (h : (r.drain b.MaxBytes.toNat).1.2 = some e) :
    NewBlobFromReader slack b r name =
      some (Except.error e, (r.drain b.MaxBytes.toNat).2) := by
  simp only [NewBlobFromReader, ReadAll_eq, h]

theorem NewBlobFromReader_ok (slack : Nat → Nat) (b : BlobBuilder) (r : Reader)
    (name : GoString) (h : (r.drain b.MaxBytes.toNat).1.2 = none) :
    NewBlobFromReader slack b r name =
      some (Except.ok
        { Name := name
          ContentType := b.ContentType
          ContentEncoding := b.ContentEncoding
          ContentTransferEncoding := ascii "base64"
          Body := EncodeToString (r.drain b.MaxBytes.toNat).1.1
          Metadata := if mapLen b.Metadata > 0 then (jsonMarshal b.Metadata).toOption else none
          ContentLength := some ((r.drain b.MaxBytes.toNat).1.1.length : Int)
          LastModified := b.LastModified }, (r.drain b.MaxBytes.toNat).2) := by
  obtain ⟨js, hjs⟩ := jsonMarshal_ok b.Metadata
  simp only [NewBlobFromReader, ReadAll_eq, h, hjs]
  split <;> simp [Except.toOption]

/-- `NewBlobFromReader` always returns: with an envelope or with an error. -/
theorem NewBlobFromReader_isSome (slack : Nat → Nat) (b : BlobBuilder) (r : Reader)
    (name : GoString) : (NewBlobFromReader slack b r name).isSome = true := by
  cases hd : (r.drain b.MaxBytes.toNat).1.2 with
  | some e => rw [NewBlobFromReader_error slack b r name e hd]; rfl
  | none => rw [NewBlobFromReader_ok slack b r name hd]; rfl

theorem NewBlobFromReader_ok_inv (slack : Nat → Nat) (b : BlobBuilder) (r r1 : Reader)
    (name : GoString) (blob : Blob)
    (h : NewBlobFromReader slack b r name = some (Except.ok blob, r1)) :
    (r.drain b.MaxBytes.toNat).1.2 = none ∧ r1 = (r.drain b.MaxBytes.toNat).2 ∧
    blob =
      { Name := name
        ContentType := b.ContentType
        ContentEncoding := b.ContentEncoding
        ContentTransferEncoding := ascii "base64"
        Body := EncodeToString (r.drain b.MaxBytes.toNat).1.1
        Metadata := if mapLen b.Metadata > 0 then (jsonMarshal b.Metadata).toOption else none
        ContentLength := some ((r.drain b.MaxBytes.toNat).1.1.length : Int)
        LastModified := b.LastModified } := by
  cases hd : (r.drain b.MaxBytes.toNat).1.2 with
  | some e =>
    rw [NewBlobFromReader_error slack b r name e hd] at h
    simp at h
  | none =>
    rw [NewBlobFromReader_ok slack b r name hd] at h
    simp only [Option.some.injEq, Prod.mk.injEq, Except.ok.injEq] at h
    exact ⟨rfl, h.2.symm, h.1.symm⟩

/-! ## Claims about reading and truncation -/

/-- C1: on a stream that yields the bytes `B` and reports no read error, with `MaxBytes` at
least `len(B)`, `NewBlobFromReader` succeeds; the envelope has `content_length = len(B)` and
`body` equal to the standard padded base64 encoding of `B`. -/
theorem C1_whole_stream_encoded (slack : Nat → Nat) (b : BlobBuilder) (r : Reader)
    (name : GoString) (B : List Byte) (hB : r.content = B) (hok : r.outcome = none)
    (hmax : (B.length : Int) ≤ b.MaxBytes) :
    ∃ blob r1, NewBlobFromReader slack b r name = some (Except.ok blob, r1) ∧
      blob.ContentLength = some (B.length : Int) ∧ blob.Body = EncodeToString B := by
  have herr : (r.drain b.MaxBytes.toNat).1.2 = none := by
    rw [drain_err, hok]; simp
  have hdata : (r.drain b.MaxBytes.toNat).1.1 = B := by
    rw [drain_data, hB]; apply List.take_of_length_le; omega
  refine ⟨_, _, NewBlobFromReader_ok slack b r name herr, ?_, ?_⟩
  · simp only [hdata]
  · simp only [hdata]

/-- Witness for C1: the input of `TestBlobBuilder_PlainText`. -/
theorem C1_whole_stream_encoded_witness :
    Reader.content [ReadStep.data (ascii "Hello, Go!")] = ascii "Hello, Go!" ∧
    Reader.outcome [ReadStep.data (ascii "Hello, Go!")] = none ∧
    (((ascii "Hello, Go!").length : Nat) : Int) ≤ plainTextBuilder.MaxBytes ∧
    ∃ blob r1, NewBlobFromReader noSlack plainTextBuilder [ReadStep.data (ascii "Hello, Go!")]
        (ascii "greeting.txt") = some (Except.ok blob, r1) ∧
      blob.ContentLength = some 10 ∧ blob.Body = ascii "SGVsbG8sIEdvIQ==" :=
  ⟨by decide, by decide, by decide,
    C1_whole_stream_encoded noSlack plainTextBuilder [ReadStep.data (ascii "Hello, Go!")]
      (ascii "greeting.txt") (ascii "Hello, Go!") (by decide) (by decide) (by decide)⟩

/-- The binary input of `TestBlobBuilder_BinaryData` gives `content_length` 8 and the
body `3q2+7wECAwQ=`. -/
theorem binaryData_run :
    NewBlobFromReader noSlack
      { ContentType := ascii "application/octet-stream", ContentEncoding := [],
        MaxBytes := 1024, Metadata := none, LastModified := none }
      [ReadStep.data [0xDE, 0xAD, 0xBE, 0xEF, 0x01, 0x02, 0x03, 0x04]] (ascii "binary.bin") =
    some (Except.ok
      { Name := ascii "binary.bin", ContentType := ascii "application/octet-stream",
        ContentEncoding := [], ContentTransferEncoding := ascii "base64",
        Body := ascii "3q2+7wECAwQ=", Metadata := none, ContentLength := some 8,
        LastModified := none }, []) := by
  rfl

/-- Counterexample to C2 as stated: with `MaxBytes = -1` and the three bytes `abc`
(so `len(B) > M`), the envelope's `content_length` is 0, not `M`. -/
theorem C2_negative_limit_counterexample :
    (((ascii "abc").length : Nat) : Int) > negativeLimitBuilder.MaxBytes ∧
    NewBlobFromReader noSlack negativeLimitBuilder [ReadStep.data (ascii "abc")] (ascii "x") =
      some (Except.ok
        { Name := ascii "x", ContentType := ascii "text/plain", ContentEncoding := [],
          ContentTransferEncoding := ascii "base64", Body := [], Metadata := none,
          ContentLength := some 0, LastModified := none }, [ReadStep.data (ascii "abc")]) ∧
    (some 0 : Option Int) ≠ some negativeLimitBuilder.MaxBytes :=
  ⟨by decide, by rfl, by decide⟩

/-- C2 (amended): for a limit `M = MaxBytes` with `0 ≤ M < len(B)`, on a stream whose content
is `B`, `NewBlobFromReader` succeeds having read exactly the first `M` bytes: the envelope
has `content_length = M` and `body` equal to the base64 encoding of `B[:M]`.  (Nothing
beyond the limit is read, so this holds whether or not the stream would fail later.) -/
theorem C2_truncation_at_limit (slack : Nat → Nat) (b : BlobBuilder) (r : Reader)
    (name : GoString) (B : List Byte) (hB : r.content = B) (h0 : 0 ≤ b.MaxBytes)
    (hlt : b.MaxBytes < (B.length : Int)) :
    ∃ blob r1, NewBlobFromReader slack b r name = some (Except.ok blob, r1) ∧
      blob.ContentLength = some b.MaxBytes ∧
      blob.Body = EncodeToString (B.take b.MaxBytes.toNat) := by
  have herr : (r.drain b.MaxBytes.toNat).1.2 = none := by
    rw [drain_err, hB]
    have : ¬ (r.quiet.length < b.MaxBytes.toNat ∧ B.length ≤ b.MaxBytes.toNat) := by omega
    rw [if_neg this]
  have hdata : (r.drain b.MaxBytes.toNat).1.1 = B.take b.MaxBytes.toNat := by
    rw [drain_data, hB]
  refine ⟨_, _, NewBlobFromReader_ok slack b r name herr, ?_, ?_⟩
  · simp only [hdata, List.length_take, Option.some.injEq]
    omega
  · simp only [hdata]

/-- Witness for C2 (amended): the input of `TestBlobBuilder_MaxBytes`, limit 10. -/
theorem C2_truncation_at_limit_witness :
    Reader.content [ReadStep.data longInput] = longInput ∧
    (0 : Int) ≤ maxBytesBuilder.MaxBytes ∧
    maxBytesBuilder.MaxBytes < ((longInput.length : Nat) : Int) ∧
    ∃ blob r1, NewBlobFromReader noSlack maxBytesBuilder [ReadStep.data longInput]
        (ascii "truncated.txt") = some (Except.ok blob, r1) ∧
      blob.ContentLength = some 10 ∧ blob.Body = EncodeToString (ascii "This is a ") :=
  ⟨by decide, by decide, by decide,
    C2_truncation_at_limit noSlack maxBytesBuilder [ReadStep.data longInput]
      (ascii "truncated.txt") longInput (by decide) (by decide) (by decide)⟩

/-- Counterexample to C4 as stated: the stream delivers the two bytes `ab` and reports a
read error together with the second of them; with `MaxBytes = 2` no error is reported before
two bytes have been delivered, and yet the call fails with that error. -/
theorem C4_error_with_last_byte_counterexample :
    Reader.content errorWithBytesStream = ascii "ab" ∧
    ¬ ((Reader.content errorWithBytesStream).length : Int) < twoBytesBuilder.MaxBytes ∧
    NewBlobFromReader noSlack twoBytesBuilder errorWithBytesStream (ascii "x") =
      some (Except.error (GoError.other 5), []) :=
  ⟨by decide, by decide, by rfl⟩

/-- C4 (amended): `NewBlobFromReader` returns the error `e` (and no envelope) exactly when
`e` is the read error with which the stream's content ends, the read that reports it starts
before `MaxBytes` bytes have been delivered, and the bytes that this read delivers with the
error, if any, do not take the total beyond `MaxBytes`; in every other case it succeeds,
whatever the content type, encoding, metadata and last-modified value of the builder. -/
theorem C4_fails_iff_read_error_within_limit (slack : Nat → Nat) (b : BlobBuilder)
    (r : Reader) (name : GoString) :
    (∀ e, (∃ r1, NewBlobFromReader slack b r name = some (Except.error e, r1)) ↔
      (r.outcome = some e ∧ (r.quiet.length : Int) < b.MaxBytes ∧
        (r.content.length : Int) ≤ b.MaxBytes)) ∧
    ((¬ ∃ e, r.outcome = some e ∧ (r.quiet.length : Int) < b.MaxBytes ∧
        (r.content.length : Int) ≤ b.MaxBytes) →
      ∃ blob r1, NewBlobFromReader slack b r name = some (Except.ok blob, r1)) := by
  have hdrain := drain_err r b.MaxBytes.toNat
  by_cases hlt : r.quiet.length < b.MaxBytes.toNat ∧ r.content.length ≤ b.MaxBytes.toNat
  · have hlt2 : (r.quiet.length : Int) < b.MaxBytes ∧
        (r.content.length : Int) ≤ b.MaxBytes := by omega
    rw [if_pos hlt] at hdrain
    cases ho : r.outcome with
    | none =>
      rw [ho] at hdrain
      have hrun := NewBlobFromReader_ok slack b r name hdrain
      refine ⟨?_, fun _ => ⟨_, _, hrun⟩⟩
      intro e
      constructor
      · rintro ⟨r1, h⟩
        rw [hrun] at h
        simp at h
      · rintro ⟨h, _⟩
        simp at h
    | some e0 =>
      rw [ho] at hdrain
      have hrun := NewBlobFromReader_error slack b r name e0 hdrain
      refine ⟨?_, ?_⟩
      · intro e
        constructor
        · rintro ⟨r1, h⟩
          rw [hrun] at h
          simp only [Option.some.injEq, Prod.mk.injEq, Except.error.injEq] at h
          exact ⟨by rw [h.1], hlt2⟩
        · rintro ⟨h, _⟩
          simp only [Option.some.injEq] at h
          exact ⟨_, by rw [← h]; exact hrun⟩
      · intro hno
        exact absurd ⟨e0, rfl, hlt2⟩ hno
  · have hlt2 : ¬ ((r.quiet.length : Int) < b.MaxBytes ∧
        (r.content.length : Int) ≤ b.MaxBytes) := by omega
    rw [if_neg hlt] at hdrain
    have hrun := NewBlobFromReader_ok slack b r name hdrain
    refine ⟨?_, fun _ => ⟨_, _, hrun⟩⟩
    intro e
    constructor
    · rintro ⟨r1, h⟩
      rw [hrun] at h
      simp at h
    · rintro ⟨_, h⟩
      exact absurd h hlt2

/-- C8: on success the envelope's `content_transfer_encoding` is the string `base64`. -/
theorem C8_transfer_encoding_is_base64 (slack : Nat → Nat) (b : BlobBuilder) (r r1 : Reader)
    (name : GoString) (blob : Blob)
    (h : NewBlobFromReader slack b r name = some (Except.ok blob, r1)) :
    blob.ContentTransferEncoding = ascii "base64" := by
  rw [(NewBlobFromReader_ok_inv slack b r r1 name blob h).2.2]

/-- C9: on success the envelope's `name` is the `name` argument and its `content_type` and
`content_encoding` are those of the builder, unchanged. -/
theorem C9_name_and_types_copied (slack : Nat → Nat) (b : BlobBuilder) (r r1 : Reader)
    (name : GoString) (blob : Blob)
    (h : NewBlobFromReader slack b r name = some (Except.ok blob, r1)) :
    blob.Name = name ∧ blob.ContentType = b.ContentType ∧
      blob.ContentEncoding = b.ContentEncoding := by
  rw [(NewBlobFromReader_ok_inv slack b r r1 name blob h).2.2]
  exact ⟨rfl, rfl, rfl⟩

/-- C10: after a successful call the envelope's `content_length` is the number `n` of bytes
taken from the stream: the bytes still pending are those pending before with the first `n`
removed, and `n` does not exceed the limit (nothing is taken when the limit is negative). -/
theorem C10_consumed_equals_content_length (slack : Nat → Nat) (b : BlobBuilder)
    (r r1 : Reader) (name : GoString) (blob : Blob) (B : List Byte) (hB : r.pending = B)
    (h : NewBlobFromReader slack b r name = some (Except.ok blob, r1)) :
    ∃ n : Nat, blob.ContentLength = some (n : Int) ∧
      B.length = n + r1.pending.length ∧ r1.pending = B.drop n ∧
      (n : Int) ≤ max b.MaxBytes 0 := by
  obtain ⟨_, hr1, hblob⟩ := NewBlobFromReader_ok_inv slack b r r1 name blob h
  have hp := drain_pending r b.MaxBytes.toNat
  have hd := drain_data r b.MaxBytes.toNat
  refine ⟨(r.drain b.MaxBytes.toNat).1.1.length, by rw [hblob], ?_, ?_, ?_⟩
  · rw [← hB, hr1]
    conv_lhs => rw [hp]
    rw [List.length_append]
  · rw [← hB, hr1]
    conv_rhs => rw [hp]
    rw [List.drop_left]
  · rw [hd, List.length_take]
    omega

/-! ## Claims about the optional fields -/

theorem jsonMarshal_toOption_ne_nil (m : Option StringMap) :
    ∃ js, (jsonMarshal m).toOption = some js ∧ js.length ≠ 0 := by
  cases m with
  | none => exact ⟨_, rfl, by decide⟩
  | some m => exact ⟨_, rfl, by simp⟩

/-- C6: on success the envelope's `metadata` is set exactly when the builder's mapping has
at least one pair; for a nil or empty mapping it stays nil and the serialised envelope has
no `metadata` key. -/
theorem C6_metadata_set_iff_nonempty (slack : Nat → Nat) (b : BlobBuilder) (r r1 : Reader)
    (name : GoString) (blob : Blob)
    (h : NewBlobFromReader slack b r name = some (Except.ok blob, r1)) :
    (blob.Metadata ≠ none ↔ 0 < mapLen b.Metadata) ∧
    (mapLen b.Metadata = 0 → blob.Metadata = none ∧ ascii "metadata" ∉ blob.jsonKeys) ∧
    (0 < mapLen b.Metadata → ascii "metadata" ∈ blob.jsonKeys) := by
  obtain ⟨_, _, hblob⟩ := NewBlobFromReader_ok_inv slack b r r1 name blob h
  obtain ⟨js, hjs, hne⟩ := jsonMarshal_toOption_ne_nil b.Metadata
  by_cases hlen : 0 < mapLen b.Metadata
  · have hm : blob.Metadata = some js := by rw [hblob]; simp [hlen, hjs]
    refine ⟨by simp [hm, hlen], fun h0 => by omega, fun _ => ?_⟩
    simp [Blob.jsonKeys, hm, hne]
  · have hm : blob.Metadata = none := by rw [hblob]; simp [hlen]
    have hcl : blob.ContentLength.isNone = false := by rw [hblob]; rfl
    refine ⟨by simp [hm, hlen], fun _ => ⟨hm, ?_⟩, fun h0 => absurd h0 hlen⟩
    simp only [Blob.jsonKeys, hm, hcl, Option.getD_none, List.length_nil, if_true]
    by_cases hl : blob.LastModified.isNone = true
    · rw [if_pos hl]; decide
    · rw [if_neg hl]; decide

/-- C7: on success the envelope's `last_modified` is the builder's, unchanged: absent, and
then not a key of the serialised envelope, when the builder's is unset; present and equal
to `T` when the builder's is set to `T`. -/
theorem C7_last_modified_carried (slack : Nat → Nat) (b : BlobBuilder) (r r1 : Reader)
    (name : GoString) (blob : Blob)
    (h : NewBlobFromReader slack b r name = some (Except.ok blob, r1)) :
    (b.LastModified = none →
      blob.LastModified = none ∧ ascii "last_modified" ∉ blob.jsonKeys) ∧
    (∀ T, b.LastModified = some T →
      blob.LastModified = some T ∧ ascii "last_modified" ∈ blob.jsonKeys) := by
  obtain ⟨_, _, hblob⟩ := NewBlobFromReader_ok_inv slack b r r1 name blob h
  have hlm : blob.LastModified = b.LastModified := by rw [hblob]
  have hcl : blob.ContentLength.isNone = false := by rw [hblob]; rfl
  constructor
  · intro hnone
    rw [hnone] at hlm
    refine ⟨hlm, ?_⟩
    simp only [Blob.jsonKeys, hlm, hcl]
    by_cases hmd : (blob.Metadata.getD []).length = 0
    · rw [if_pos hmd]; decide
    · rw [if_neg hmd]; decide
  · intro T hT
    rw [hT] at hlm
    refine ⟨hlm, ?_⟩
    simp [Blob.jsonKeys, hlm]

/-- The run used by the witnesses below. -/
theorem typed_run :
    NewBlobFromReader noSlack typedBuilder typedStream (ascii "typed.txt") =
      some (Except.ok typedBlob, typedStreamAfter) := by
  rfl

/-- Witness for C4 (amended): a read error after two bytes is returned when the limit is
1024, whether it comes alone or together with the second byte. -/
theorem C4_fails_iff_read_error_within_limit_witness :
    (∃ r1, NewBlobFromReader noSlack plainTextBuilder faultyStream (ascii "x") =
      some (Except.error (GoError.other 5), r1)) ∧
    (∃ r1, NewBlobFromReader noSlack plainTextBuilder errorWithBytesStream (ascii "x") =
      some (Except.error (GoError.other 5), r1)) :=
  ⟨((C4_fails_iff_read_error_within_limit noSlack plainTextBuilder faultyStream
      (ascii "x")).1 (GoError.other 5)).2 ⟨by decide, by decide, by decide⟩,
   ((C4_fails_iff_read_error_within_limit noSlack plainTextBuilder errorWithBytesStream
      (ascii "x")).1 (GoError.other 5)).2 ⟨by decide, by decide, by decide⟩⟩

/-- With a limit of one byte the same stream gives an envelope of its first byte: the read
that would report the error is cut short by the limit. -/
theorem errorWithBytes_limit_one_run :
    NewBlobFromReader noSlack
      { ContentType := ascii "text/plain", ContentEncoding := [], MaxBytes := 1,
        Metadata := none, LastModified := none } errorWithBytesStream (ascii "x") =
    some (Except.ok
      { Name := ascii "x", ContentType := ascii "text/plain", ContentEncoding := [],
        ContentTransferEncoding := ascii "base64", Body := ascii "YQ==", Metadata := none,
        ContentLength := some 1, LastModified := none },
      [ReadStep.dataFail (ascii "b") (GoError.other 5)]) := by
  rfl

/-- Witness for C6. -/
theorem C6_metadata_set_iff_nonempty_witness :
    NewBlobFromReader noSlack typedBuilder typedStream (ascii "typed.txt") =
      some (Except.ok typedBlob, typedStreamAfter) ∧
    ((typedBlob.Metadata ≠ none ↔ 0 < mapLen typedBuilder.Metadata) ∧
    (mapLen typedBuilder.Metadata = 0 →
      typedBlob.Metadata = none ∧ ascii "metadata" ∉ typedBlob.jsonKeys) ∧
    (0 < mapLen typedBuilder.Metadata → ascii "metadata" ∈ typedBlob.jsonKeys)) :=
  ⟨by rfl, C6_metadata_set_iff_nonempty noSlack typedBuilder typedStream typedStreamAfter
    (ascii "typed.txt") typedBlob (by rfl)⟩

/-- Witness for C7. -/
theorem C7_last_modified_carried_witness :
    NewBlobFromReader noSlack typedBuilder typedStream (ascii "typed.txt") =
      some (Except.ok typedBlob, typedStreamAfter) ∧
    ((typedBuilder.LastModified = none →
      typedBlob.LastModified = none ∧ ascii "last_modified" ∉ typedBlob.jsonKeys) ∧
    (∀ T, typedBuilder.LastModified = some T →
      typedBlob.LastModified = some T ∧ ascii "last_modified" ∈ typedBlob.jsonKeys)) :=
  ⟨by rfl, C7_last_modified_carried noSlack typedBuilder typedStream typedStreamAfter
    (ascii "typed.txt") typedBlob (by rfl)⟩

/-- Witness for C8. -/
theorem C8_transfer_encoding_is_base64_witness :
    NewBlobFromReader noSlack typedBuilder typedStream (ascii "typed.txt") =
      some (Except.ok typedBlob, typedStreamAfter) ∧
    typedBlob.ContentTransferEncoding = ascii "base64" :=
  ⟨by rfl, C8_transfer_encoding_is_base64 noSlack typedBuilder typedStream typedStreamAfter
    (ascii "typed.txt") typedBlob (by rfl)⟩

/-- Witness for C9. -/
theorem C9_name_and_types_copied_witness :
    NewBlobFromReader noSlack typedBuilder typedStream (ascii "typed.txt") =
      some (Except.ok typedBlob, typedStreamAfter) ∧
    (typedBlob.Name = ascii "typed.txt" ∧ typedBlob.ContentType = typedBuilder.ContentType ∧
      typedBlob.ContentEncoding = typedBuilder.ContentEncoding) :=
  ⟨by rfl, C9_name_and_types_copied noSlack typedBuilder typedStream typedStreamAfter
    (ascii "typed.txt") typedBlob (by rfl)⟩

/-- Witness for C10: four of the fifteen bytes are taken, eleven stay. -/
theorem C10_consumed_equals_content_length_witness :
    Reader.pending typedStream = ascii "some typed data" ∧
    NewBlobFromReader noSlack typedBuilder typedStream (ascii "typed.txt") =
      some (Except.ok typedBlob, typedStreamAfter) ∧
    ∃ n : Nat, typedBlob.ContentLength = some (n : Int) ∧
      (ascii "some typed data").length = n + typedStreamAfter.pending.length ∧
      typedStreamAfter.pending = (ascii "some typed data").drop n ∧
      (n : Int) ≤ max typedBuilder.MaxBytes 0 :=
  ⟨by decide, by rfl, C10_consumed_equals_content_length noSlack typedBuilder typedStream
    typedStreamAfter (ascii "typed.txt") typedBlob (ascii "some typed data") (by decide)
    (by rfl)⟩

/-! ## Base64: decoding inverts encoding -/

theorem encodeChar_fin : ∀ v : Fin 64,
    decodeChar (encodeChar v.val) = some v.val ∧ encodeChar v.val ≠ padChar ∧
      encodeChar v.val ≠ 13 ∧ encodeChar v.val ≠ 10 := by
  decide

theorem decodeChar_encodeChar (v : Nat) (h : v < 64) :
    decodeChar (encodeChar v) = some v := (encodeChar_fin ⟨v, h⟩).1

theorem encodeChar_ne_pad (v : Nat) (h : v < 64) : encodeChar v ≠ padChar :=
  (encodeChar_fin ⟨v, h⟩).2.1

theorem encodeChar_keep (v : Nat) (h : v < 64) :
    (decide (encodeChar v ≠ 13 ∧ encodeChar v ≠ 10)) = true := by
  have := encodeChar_fin ⟨v, h⟩
  simp only [decide_eq_true_eq]
  exact ⟨this.2.2.1, this.2.2.2⟩

theorem ofNat_byte (n : Nat) (b : Byte) (h : n % 256 = b.val) : (Fin.ofNat n : Byte) = b := by
  apply Fin.ext
  simpa [Fin.ofNat] using h

theorem decodeQuanta_full (c0 c1 c2 c3 : Byte) (tl : List Byte) (v0 v1 v2 v3 : Nat)
    (h0 : decodeChar c0 = some v0) (h1 : decodeChar c1 = some v1)
    (h2 : decodeChar c2 = some v2) (h3 : decodeChar c3 = some v3)
    (p2 : c2 ≠ padChar) (p3 : c3 ≠ padChar) :
    decodeQuanta (c0 :: c1 :: c2 :: c3 :: tl) =
      (decodeQuanta tl).map (fun t =>
        Fin.ofNat ((v0 * 262144 + v1 * 4096 + v2 * 64 + v3) / 65536) ::
        Fin.ofNat ((v0 * 262144 + v1 * 4096 + v2 * 64 + v3) / 256) ::
        Fin.ofNat (v0 * 262144 + v1 * 4096 + v2 * 64 + v3) :: t) := by
  cases tl with
  | nil => simp [decodeQuanta, h0, h1, h2, h3, p2, p3]
  | cons t ts => simp [decodeQuanta, h0, h1, h2, h3]

theorem decodeQuanta_Encode (s : List Byte) : decodeQuanta (Encode s) = some s := by
  induction s using Encode.induct with
  | case1 s0 s1 s2 rest ih =>
    have b0 := s0.isLt
    have b1 := s1.isLt
    have b2 := s2.isLt
    simp only [Encode]
    rw [decodeQuanta_full _ _ _ _ _ _ _ _ _
      (decodeChar_encodeChar _ (Nat.mod_lt _ (by decide)))
      (decodeChar_encodeChar _ (Nat.mod_lt _ (by decide)))
      (decodeChar_encodeChar _ (Nat.mod_lt _ (by decide)))
      (decodeChar_encodeChar _ (Nat.mod_lt _ (by decide)))
      (encodeChar_ne_pad _ (Nat.mod_lt _ (by decide)))
      (encodeChar_ne_pad _ (Nat.mod_lt _ (by decide))), ih]
    simp only [Option.map_some']
    rw [ofNat_byte _ s0 (by omega), ofNat_byte _ s1 (by omega), ofNat_byte _ s2 (by omega)]
  | case2 s0 s1 =>
    have b0 := s0.isLt
    have b1 := s1.isLt
    simp only [Encode, decodeQuanta,
      decodeChar_encodeChar _ (Nat.mod_lt _ (by decide : 0 < 64)),
      encodeChar_ne_pad _ (Nat.mod_lt _ (by decide : 0 < 64)), false_and, if_false, if_true]
    rw [ofNat_byte _ s0 (by omega), ofNat_byte _ s1 (by omega)]
  | case3 s0 =>
    have b0 := s0.isLt
    simp only [Encode, decodeQuanta,
      decodeChar_encodeChar _ (Nat.mod_lt _ (by decide : 0 < 64)), and_self, if_true]
    rw [ofNat_byte _ s0 (by omega)]
  | case4 => rfl

theorem filter_Encode (s : List Byte) :
    (Encode s).filter (fun c => decide (c ≠ 13 ∧ c ≠ 10)) = Encode s := by
  have hp : (decide (padChar ≠ 13 ∧ padChar ≠ 10)) = true := by decide
  induction s using Encode.induct with
  | case1 s0 s1 s2 rest ih =>
    simp only [Encode, List.filter_cons, encodeChar_keep _ (Nat.mod_lt _ (by decide : 0 < 64)),
      if_true, ih]
  | case2 s0 s1 =>
    simp only [Encode, List.filter_cons, encodeChar_keep _ (Nat.mod_lt _ (by decide : 0 < 64)),
      if_true, hp, List.filter_nil]
  | case3 s0 =>
    simp only [Encode, List.filter_cons, encodeChar_keep _ (Nat.mod_lt _ (by decide : 0 < 64)),
      if_true, hp, List.filter_nil]
  | case4 => rfl

theorem DecodeString_EncodeToString (s : List Byte) :
    DecodeString (EncodeToString s) = some s := by
  unfold DecodeString EncodeToString
  rw [filter_Encode, decodeQuanta_Encode]

/-- C3: on success the envelope's `body` is valid standard padded base64: decoding it
succeeds and yields the bytes `data` that were taken from the stream (the pending bytes
before the call are `data` followed by those pending after it), and `content_length` is the
length of `data`. -/
theorem C3_body_decodes_to_bytes_read (slack : Nat → Nat) (b : BlobBuilder) (r r1 : Reader)
    (name : GoString) (blob : Blob)
    (h : NewBlobFromReader slack b r name = some (Except.ok blob, r1)) :
    ∃ data : List Byte, DecodeString blob.Body = some data ∧
      blob.ContentLength = some (data.length : Int) ∧ r.pending = data ++ r1.pending := by
  obtain ⟨_, hr1, hblob⟩ := NewBlobFromReader_ok_inv slack b r r1 name blob h
  refine ⟨(r.drain b.MaxBytes.toNat).1.1, ?_, ?_, ?_⟩
  · rw [hblob]; exact DecodeString_EncodeToString _
  · rw [hblob]
  · rw [hr1]; exact drain_pending r _

/-- Witness for C3: the body `c29tZQ==` decodes to the four bytes `some`. -/
theorem C3_body_decodes_to_bytes_read_witness :
    NewBlobFromReader noSlack typedBuilder typedStream (ascii "typed.txt") =
      some (Except.ok typedBlob, typedStreamAfter) ∧
    ∃ data : List Byte, DecodeString typedBlob.Body = some data ∧
      typedBlob.ContentLength = some (data.length : Int) ∧
      typedStream.pending = data ++ typedStreamAfter.pending :=
  ⟨by rfl, C3_body_decodes_to_bytes_read noSlack typedBuilder typedStream typedStreamAfter
    (ascii "typed.txt") typedBlob (by rfl)⟩

/-! ## UTF-8: encoding inverts a valid decoding -/

theorem decode2 (s0 : Byte) (t : List Byte) (x lo hi : Nat) (hf : first s0 = x)
    (hx : x < 0xF0) (hsz : x % 8 = 2) (hacc : acceptRanges (x / 16) = (lo, hi))
    (hlo : 0x80 ≤ lo) (hhi : hi ≤ 0xBF) (h0 : 0xC2 ≤ s0.val) (h0' : s0.val < 0xE0)
    (hv : ¬ ((DecodeRuneInString (s0 :: t)).1 = RuneError ∧
      (DecodeRuneInString (s0 :: t)).2 = 1)) :
    DecodedOK (s0 :: t) (DecodeRuneInString (s0 :: t)).1 (DecodeRuneInString (s0 :: t)).2 := by
  have hnx : ¬ x ≥ 0xF0 := by omega
  rcases t with _ | ⟨s1, t1⟩
  · exfalso; apply hv
    simp [DecodeRuneInString, hf, hnx, hsz]
  · have b1 := s1.isLt
    by_cases hr : s1.val < lo ∨ hi < s1.val
    · exfalso; apply hv
      simp [DecodeRuneInString, hf, hnx, hsz, hacc, hr]
    · have hd : DecodeRuneInString (s0 :: s1 :: t1) = (s0.val % 32 * 64 + s1.val % 64, 2) := by
        simp [DecodeRuneInString, hf, hnx, hsz, hacc, hr]
      have hdX : ∀ X, DecodeRuneInString (s0 :: s1 :: X) = (s0.val % 32 * 64 + s1.val % 64, 2) := by
        intro X
        simp [DecodeRuneInString, hf, hnx, hsz, hacc, hr]
      rw [hd]
      refine ⟨le_refl _, by simp, ?_, fun X => hdX X, ?_, by simp⟩
      · have e1 : ¬ s0.val % 32 * 64 + s1.val % 64 ≤ 0x7F := by omega
        have e2 : s0.val % 32 * 64 + s1.val % 64 ≤ 0x7FF := by omega
        simp only [EncodeRune, e1, e2, if_true, if_false, List.take_succ_cons, List.take_zero]
        rw [ofNat_byte _ s0 (by omega), ofNat_byte _ s1 (by omega)]
      · intro y hy
        simp only [List.take_succ_cons, List.take_zero, List.mem_cons, List.mem_nil_iff,
          or_false] at hy
        rcases hy with rfl | rfl <;> omega



theorem decode3 (s0 : Byte) (t : List Byte) (x lo hi : Nat) (hf : first s0 = x)
    (hx : x < 0xF0) (hsz : x % 8 = 3) (hacc : acceptRanges (x / 16) = (lo, hi))
    (hlo : 0x80 ≤ lo) (hhi : hi ≤ 0xBF) (h0 : 0xE0 ≤ s0.val) (h0' : s0.val < 0xF0)
    (hE0 : s0.val = 0xE0 → 0xA0 ≤ lo) (hED : s0.val = 0xED → hi ≤ 0x9F)
    (hv : ¬ ((DecodeRuneInString (s0 :: t)).1 = RuneError ∧
      (DecodeRuneInString (s0 :: t)).2 = 1)) :
    DecodedOK (s0 :: t) (DecodeRuneInString (s0 :: t)).1 (DecodeRuneInString (s0 :: t)).2 := by
  have hnx : ¬ x ≥ 0xF0 := by omega
  rcases t with _ | ⟨s1, _ | ⟨s2, t2⟩⟩
  · exfalso; apply hv
    simp [DecodeRuneInString, hf, hnx, hsz]
  · exfalso; apply hv
    simp [DecodeRuneInString, hf, hnx, hsz]
  · have b1 := s1.isLt
    have b2 := s2.isLt
    by_cases hr : s1.val < lo ∨ hi < s1.val
    · exfalso; apply hv
      simp [DecodeRuneInString, hf, hnx, hsz, hacc, hr]
    by_cases hr2 : s2.val < 0x80 ∨ 0xBF < s2.val
    · exfalso; apply hv
      simp [DecodeRuneInString, hf, hnx, hsz, hacc, hr, hr2]
    have hdX : ∀ X, DecodeRuneInString (s0 :: s1 :: s2 :: X) =
        (s0.val % 16 * 4096 + s1.val % 64 * 64 + s2.val % 64, 3) := by
      intro X
      simp [DecodeRuneInString, hf, hnx, hsz, hacc, hr, hr2]
    rw [hdX t2]
    refine ⟨by omega, by simp, ?_, fun X => hdX X, ?_, by simp⟩
    · have e1 : ¬ s0.val % 16 * 4096 + s1.val % 64 * 64 + s2.val % 64 ≤ 0x7F := by omega
      have e2 : ¬ s0.val % 16 * 4096 + s1.val % 64 * 64 + s2.val % 64 ≤ 0x7FF := by omega
      have e3 : ¬ (s0.val % 16 * 4096 + s1.val % 64 * 64 + s2.val % 64 > 0x10FFFF ∨
          (0xD800 ≤ s0.val % 16 * 4096 + s1.val % 64 * 64 + s2.val % 64 ∧
            s0.val % 16 * 4096 + s1.val % 64 * 64 + s2.val % 64 ≤ 0xDFFF)) := by omega
      have e4 : s0.val % 16 * 4096 + s1.val % 64 * 64 + s2.val % 64 ≤ 0xFFFF := by omega
      simp only [EncodeRune, e1, e2, e3, e4, if_true, if_false, List.take_succ_cons,
        List.take_zero]
      rw [ofNat_byte _ s0 (by omega), ofNat_byte _ s1 (by omega), ofNat_byte _ s2 (by omega)]
    · intro y hy
      simp only [List.take_succ_cons, List.take_zero, List.mem_cons, List.mem_nil_iff,
        or_false] at hy
      rcases hy with rfl | rfl | rfl <;> omega

theorem decode4 (s0 : Byte) (t : List Byte) (x lo hi : Nat) (hf : first s0 = x)
    (hx : x < 0xF0) (hsz : x % 8 = 4) (hacc : acceptRanges (x / 16) = (lo, hi))
    (hlo : 0x80 ≤ lo) (hhi : hi ≤ 0xBF) (h0 : 0xF0 ≤ s0.val) (h0' : s0.val ≤ 0xF4)
    (hF0 : s0.val = 0xF0 → 0x90 ≤ lo) (hF4 : s0.val = 0xF4 → hi ≤ 0x8F)
    (hv : ¬ ((DecodeRuneInString (s0 :: t)).1 = RuneError ∧
      (DecodeRuneInString (s0 :: t)).2 = 1)) :
    DecodedOK (s0 :: t) (DecodeRuneInString (s0 :: t)).1 (DecodeRuneInString (s0 :: t)).2 := by
  have hnx : ¬ x ≥ 0xF0 := by omega
  rcases t with _ | ⟨s1, _ | ⟨s2, _ | ⟨s3, t3⟩⟩⟩
  · exfalso; apply hv
    simp [DecodeRuneInString, hf, hnx, hsz]
  · exfalso; apply hv
    simp [DecodeRuneInString, hf, hnx, hsz]
  · exfalso; apply hv
    simp [DecodeRuneInString, hf, hnx, hsz]
  · have b1 := s1.isLt
    have b2 := s2.isLt
    have b3 := s3.isLt
    by_cases hr : s1.val < lo ∨ hi < s1.val
    · exfalso; apply hv
      simp [DecodeRuneInString, hf, hnx, hsz, hacc, hr]
    by_cases hr2 : s2.val < 0x80 ∨ 0xBF < s2.val
    · exfalso; apply hv
      simp [DecodeRuneInString, hf, hnx, hsz, hacc, hr, hr2]
    by_cases hr3 : s3.val < 0x80 ∨ 0xBF < s3.val
    · exfalso; apply hv
      simp [DecodeRuneInString, hf, hnx, hsz, hacc, hr, hr2, hr3]
    have hdX : ∀ X, DecodeRuneInString (s0 :: s1 :: s2 :: s3 :: X) =
        (s0.val % 8 * 262144 + s1.val % 64 * 4096 + s2.val % 64 * 64 + s3.val % 64, 4) := by
      intro X
      simp [DecodeRuneInString, hf, hnx, hsz, hacc, hr, hr2, hr3]
    rw [hdX t3]
    refine ⟨by omega, by simp, ?_, fun X => hdX X, ?_, by simp⟩
    · have e1 : ¬ s0.val % 8 * 262144 + s1.val % 64 * 4096 + s2.val % 64 * 64 + s3.val % 64
          ≤ 0x7F := by omega
      have e2 : ¬ s0.val % 8 * 262144 + s1.val % 64 * 4096 + s2.val % 64 * 64 + s3.val % 64
          ≤ 0x7FF := by omega
      have e3 : ¬ (s0.val % 8 * 262144 + s1.val % 64 * 4096 + s2.val % 64 * 64 + s3.val % 64
          > 0x10FFFF ∨
          (0xD800 ≤ s0.val % 8 * 262144 + s1.val % 64 * 4096 + s2.val % 64 * 64 + s3.val % 64 ∧
            s0.val % 8 * 262144 + s1.val % 64 * 4096 + s2.val % 64 * 64 + s3.val % 64
              ≤ 0xDFFF)) := by omega
      have e4 : ¬ s0.val % 8 * 262144 + s1.val % 64 * 4096 + s2.val % 64 * 64 + s3.val % 64
          ≤ 0xFFFF := by omega
      simp only [EncodeRune, e1, e2, e3, e4, if_false, List.take_succ_cons, List.take_zero]
      rw [ofNat_byte _ s0 (by omega), ofNat_byte _ s1 (by omega), ofNat_byte _ s2 (by omega),
        ofNat_byte _ s3 (by omega)]
    · intro y hy
      simp only [List.take_succ_cons, List.take_zero, List.mem_cons, List.mem_nil_iff,
        or_false] at hy
      rcases hy with rfl | rfl | rfl | rfl <;> omega

set_option maxRecDepth 100000 in
theorem first_cases : ∀ b : Byte, 0x80 ≤ b.val →
    first b = 0xF1 ∨ (first b = 0x02 ∧ 0xC2 ≤ b.val ∧ b.val < 0xE0) ∨
    (first b = 0x13 ∧ b.val = 0xE0) ∨
    (first b = 0x03 ∧ 0xE1 ≤ b.val ∧ b.val < 0xF0 ∧ b.val ≠ 0xED) ∨
    (first b = 0x23 ∧ b.val = 0xED) ∨ (first b = 0x34 ∧ b.val = 0xF0) ∨
    (first b = 0x04 ∧ 0xF1 ≤ b.val ∧ b.val < 0xF4) ∨ (first b = 0x44 ∧ b.val = 0xF4) := by
  decide

theorem decode_valid (s0 : Byte) (t : List Byte) (h80 : 0x80 ≤ s0.val)
    (hv : ¬ ((DecodeRuneInString (s0 :: t)).1 = RuneError ∧
      (DecodeRuneInString (s0 :: t)).2 = 1)) :
    DecodedOK (s0 :: t) (DecodeRuneInString (s0 :: t)).1 (DecodeRuneInString (s0 :: t)).2 := by
  rcases first_cases s0 h80 with hf | ⟨hf, h1, h2⟩ | ⟨hf, h1⟩ | ⟨hf, h1, h2, h3⟩ | ⟨hf, h1⟩ |
    ⟨hf, h1⟩ | ⟨hf, h1, h2⟩ | ⟨hf, h1⟩
  · exfalso; apply hv; simp [DecodeRuneInString, hf]
  · exact decode2 s0 t _ 0x80 0xBF hf (by decide) (by decide) (by rfl) (by decide) (by decide)
      h1 h2 hv
  · exact decode3 s0 t _ 0xA0 0xBF hf (by decide) (by decide) (by rfl) (by decide) (by decide)
      (by omega) (by omega) (by omega) (by omega) hv
  · exact decode3 s0 t _ 0x80 0xBF hf (by decide) (by decide) (by rfl) (by decide) (by decide)
      (by omega) (by omega) (by omega) (by omega) hv
  · exact decode3 s0 t _ 0x80 0x9F hf (by decide) (by decide) (by rfl) (by decide) (by decide)
      (by omega) (by omega) (by omega) (by omega) hv
  · exact decode4 s0 t _ 0x90 0xBF hf (by decide) (by decide) (by rfl) (by decide) (by decide)
      (by omega) (by omega) (by omega) (by omega) hv
  · exact decode4 s0 t _ 0x80 0xBF hf (by decide) (by decide) (by rfl) (by decide) (by decide)
      (by omega) (by omega) (by omega) (by omega) hv
  · exact decode4 s0 t _ 0x80 0x8F hf (by decide) (by decide) (by rfl) (by decide) (by decide)
      (by omega) (by omega) (by omega) (by omega) hv

/-! ## JSON strings: unquoting inverts quoting of valid UTF-8 -/

theorem hexVal_hexChar : ∀ v : Fin 16, hexVal (hexChar v.val) = some v.val := by decide

theorem decode_ascii (b : Byte) (t : List Byte) (hb : b.val < 0x80) :
    DecodeRuneInString (b :: t) = (b.val, 1) := by
  have hf : first b = 0xF0 := by simp [first, hb]
  simp [DecodeRuneInString, hf]

theorem unquoteLoop_cons (f : Nat) (c : Byte) (rest : List Byte) :
    unquoteLoop (f + 1) (c :: rest) =
    if c.val = 0x22 then some ([], rest)
    else if c.val = 0x5C then
      match rest with
      | [] => none
      | e :: rest1 =>
        if e.val = 0x22 ∨ e.val = 0x5C ∨ e.val = 0x2F then consPiece [e] (unquoteLoop f rest1)
        else if e.val = 0x62 then consPiece [0x08] (unquoteLoop f rest1)
        else if e.val = 0x66 then consPiece [0x0C] (unquoteLoop f rest1)
        else if e.val = 0x6E then consPiece [0x0A] (unquoteLoop f rest1)
        else if e.val = 0x72 then consPiece [0x0D] (unquoteLoop f rest1)
        else if e.val = 0x74 then consPiece [0x09] (unquoteLoop f rest1)
        else if e.val = 0x75 then
          match getu4 (c :: rest) with
          | none => none
          | some rr =>
            let after := (c :: rest).drop 6
            if 0xD800 ≤ rr ∧ rr < 0xE000 then
              let dec := utf16DecodeRune rr (getu4 after)
              if dec ≠ 0xFFFD then consPiece (EncodeRune dec) (unquoteLoop f (after.drop 6))
              else consPiece (EncodeRune 0xFFFD) (unquoteLoop f after)
            else consPiece (EncodeRune rr) (unquoteLoop f after)
        else none
    else if c.val < 0x20 then none
    else if c.val < 0x80 then consPiece [c] (unquoteLoop f rest)
    else
      let d := DecodeRuneInString (c :: rest)
      consPiece (EncodeRune d.1) (unquoteLoop f ((c :: rest).drop d.2)) := by
  rfl

theorem unquote_safe (b : Byte) (hs : htmlSafeSet b = true) (f : Nat) (X : List Byte) :
    unquoteLoop (f + 1) (b :: X) = consPiece [b] (unquoteLoop f X) := by
  simp only [htmlSafeSet, Bool.and_eq_true, decide_eq_true_eq] at hs
  obtain ⟨⟨⟨⟨⟨⟨h1, h2⟩, h3⟩, h4⟩, h5⟩, h6⟩, h7⟩ := hs
  have h8 : ¬ b.val < 0x20 := by omega
  rw [unquoteLoop_cons]
  simp only [h3, h7, h8, h2, if_false, if_true]

theorem unquote_backslash (e : Byte) (f : Nat) (X : List Byte) :
    unquoteLoop (f + 1) (0x5C :: e :: X) =
      if e.val = 0x22 ∨ e.val = 0x5C ∨ e.val = 0x2F then consPiece [e] (unquoteLoop f X)
      else if e.val = 0x62 then consPiece [0x08] (unquoteLoop f X)
      else if e.val = 0x66 then consPiece [0x0C] (unquoteLoop f X)
      else if e.val = 0x6E then consPiece [0x0A] (unquoteLoop f X)
      else if e.val = 0x72 then consPiece [0x0D] (unquoteLoop f X)
      else if e.val = 0x74 then consPiece [0x09] (unquoteLoop f X)
      else if e.val = 0x75 then
        match getu4 (0x5C :: e :: X) with
        | none => none
        | some rr =>
          if 0xD800 ≤ rr ∧ rr < 0xE000 then
            if utf16DecodeRune rr (getu4 ((0x5C :: e :: X).drop 6)) ≠ 0xFFFD then
              consPiece (EncodeRune (utf16DecodeRune rr (getu4 ((0x5C :: e :: X).drop 6))))
                (unquoteLoop f (((0x5C :: e :: X).drop 6).drop 6))
            else consPiece (EncodeRune 0xFFFD) (unquoteLoop f ((0x5C :: e :: X).drop 6))
          else consPiece (EncodeRune rr) (unquoteLoop f ((0x5C :: e :: X).drop 6))
      else none := by
  rfl

theorem getu4_hex (a0 a1 a2 a3 : Nat) (h0 : a0 < 16) (h1 : a1 < 16) (h2 : a2 < 16)
    (h3 : a3 < 16) (X : List Byte) :
    getu4 (0x5C :: 0x75 :: hexChar a0 :: hexChar a1 :: hexChar a2 :: hexChar a3 :: X) =
      some (((a0 * 16 + a1) * 16 + a2) * 16 + a3) := by
  have e0 := hexVal_hexChar ⟨a0, h0⟩
  have e1 := hexVal_hexChar ⟨a1, h1⟩
  have e2 := hexVal_hexChar ⟨a2, h2⟩
  have e3 := hexVal_hexChar ⟨a3, h3⟩
  simp only at e0 e1 e2 e3
  have c0 : (0x5C : Byte).val = 0x5C ∧ (0x75 : Byte).val = 0x75 := by decide
  simp only [getu4, c0, e0, e1, e2, e3, and_self, if_true]

theorem unquote_u (a0 a1 a2 a3 : Nat) (h0 : a0 < 16) (h1 : a1 < 16) (h2 : a2 < 16)
    (h3 : a3 < 16) (f : Nat) (X : List Byte)
    (hs : ¬ (0xD800 ≤ ((a0 * 16 + a1) * 16 + a2) * 16 + a3 ∧
      ((a0 * 16 + a1) * 16 + a2) * 16 + a3 < 0xE000)) :
    unquoteLoop (f + 1)
      (0x5C :: 0x75 :: hexChar a0 :: hexChar a1 :: hexChar a2 :: hexChar a3 :: X) =
      consPiece (EncodeRune (((a0 * 16 + a1) * 16 + a2) * 16 + a3)) (unquoteLoop f X) := by
  rw [unquote_backslash, getu4_hex a0 a1 a2 a3 h0 h1 h2 h3]
  have c0 : ¬ ((0x75 : Byte).val = 0x22 ∨ (0x75 : Byte).val = 0x5C ∨ (0x75 : Byte).val = 0x2F)
    := by decide
  have c1 : ¬ (0x75 : Byte).val = 0x62 := by decide
  have c2 : ¬ (0x75 : Byte).val = 0x66 := by decide
  have c3 : ¬ (0x75 : Byte).val = 0x6E := by decide
  have c4 : ¬ (0x75 : Byte).val = 0x72 := by decide
  have c5 : ¬ (0x75 : Byte).val = 0x74 := by decide
  have c6 : (0x75 : Byte).val = 0x75 := by decide
  simp only [c0, c1, c2, c3, c4, c5, c6, if_false, if_true, hs]
  rfl

theorem unquote_escape (b : Byte) (hb : b.val < 0x80) (hs : htmlSafeSet b = false) (f : Nat)
    (X : List Byte) :
    unquoteLoop (f + 1) (escapeByte b ++ X) = consPiece [b] (unquoteLoop f X) := by
  have hlt := b.isLt
  unfold escapeByte
  split_ifs with h1 h2 h3 h4 h5 h6
  · simp only [List.cons_append, List.nil_append]
    rw [unquote_backslash]
    have : b.val = 0x22 ∨ b.val = 0x5C ∨ b.val = 0x2F := by omega
    simp only [this, if_true]
  · have hb8 : b = 0x08 := Fin.ext h2
    subst hb8
    rfl
  · have hb8 : b = 0x0C := Fin.ext h3
    subst hb8
    rfl
  · have hb8 : b = 0x0A := Fin.ext h4
    subst hb8
    rfl
  · have hb8 : b = 0x0D := Fin.ext h5
    subst hb8
    rfl
  · have hb8 : b = 0x09 := Fin.ext h6
    subst hb8
    rfl
  · have e : ((0 * 16 + 0) * 16 + b.val / 16) * 16 + b.val % 16 = b.val := by omega
    have hu := unquote_u 0 0 (b.val / 16) (b.val % 16) (by decide) (by decide) (by omega)
      (by omega) f X (by omega)
    rw [e] at hu
    have he : EncodeRune b.val = [b] := by
      have : b.val ≤ 0x7F := by omega
      simp only [EncodeRune, this, if_true]
      rw [ofNat_byte _ b (by omega)]
    rw [he] at hu
    exact hu

theorem unquote_multibyte (s0 : Byte) (t : List Byte) (c n : Nat) (h80 : 0x80 ≤ s0.val)
    (hd : DecodedOK (s0 :: t) c n) (f : Nat) (X : List Byte) :
    unquoteLoop (f + 1) ((s0 :: t).take n ++ X) =
      consPiece ((s0 :: t).take n) (unquoteLoop f X) := by
  have hst := hd.stable X
  have henc := hd.encode
  have hlen : ((s0 :: t).take n).length = n := by
    rw [List.length_take]; exact min_eq_left hd.le_len
  obtain ⟨m, rfl⟩ : ∃ m, n = m + 1 := ⟨n - 1, by have := hd.two_le; omega⟩
  rw [List.take_succ_cons] at hst henc hlen ⊢
  rw [List.cons_append] at hst ⊢
  rw [unquoteLoop_cons]
  have c1 : ¬ s0.val = 0x22 := by omega
  have c2 : ¬ s0.val = 0x5C := by omega
  have c3 : ¬ s0.val < 0x20 := by omega
  have c4 : ¬ s0.val < 0x80 := by omega
  simp only [c1, c2, c3, c4, if_false, hst, henc]
  rw [← List.cons_append, List.drop_left' hlen]

theorem unquote_u202x (c : Nat) (hc : c = 0x2028 ∨ c = 0x2029) (f : Nat) (X : List Byte) :
    unquoteLoop (f + 1) (ascii "\\u202" ++ hexChar (c % 16) :: X) =
      consPiece (EncodeRune c) (unquoteLoop f X) := by
  have hu := unquote_u 2 0 2 (c % 16) (by decide) (by decide) (by decide) (by omega) f X
    (by omega)
  have e : ((2 * 16 + 0) * 16 + 2) * 16 + c % 16 = c := by omega
  rw [e] at hu
  exact hu

theorem appendStringLoop_nil (f : Nat) : appendStringLoop f [] = [] := by
  cases f <;> rfl

theorem appendStringLoop_cons (f : Nat) (b : Byte) (rest : List Byte) :
    appendStringLoop (f + 1) (b :: rest) =
    if b.val < 0x80 then
      if htmlSafeSet b then b :: appendStringLoop f rest
      else escapeByte b ++ appendStringLoop f rest
    else
      if (DecodeRuneInString ((b :: rest).take 4)).1 = RuneError ∧
          (DecodeRuneInString ((b :: rest).take 4)).2 = 1 then
        ascii "\\ufffd" ++
          appendStringLoop f ((b :: rest).drop (DecodeRuneInString ((b :: rest).take 4)).2)
      else if (DecodeRuneInString ((b :: rest).take 4)).1 = 0x2028 ∨
          (DecodeRuneInString ((b :: rest).take 4)).1 = 0x2029 then
        ascii "\\u202" ++ hexChar ((DecodeRuneInString ((b :: rest).take 4)).1 % 16) ::
          appendStringLoop f ((b :: rest).drop (DecodeRuneInString ((b :: rest).take 4)).2)
      else (b :: rest).take (DecodeRuneInString ((b :: rest).take 4)).2 ++
        appendStringLoop f ((b :: rest).drop (DecodeRuneInString ((b :: rest).take 4)).2) := by
  rfl

theorem validLoop_cons (v : Nat) (b : Byte) (rest : List Byte) :
    validLoop (v + 1) (b :: rest) =
      if (DecodeRuneInString (b :: rest)).1 = RuneError ∧ (DecodeRuneInString (b :: rest)).2 = 1
      then false else validLoop v ((b :: rest).drop (DecodeRuneInString (b :: rest)).2) := by
  rfl

theorem decode_take4 (s : List Byte) (c n : Nat) (hd : DecodedOK s c n) :
    DecodeRuneInString (s.take 4) = (c, n) := by
  have h := hd.stable ((s.take 4).drop n)
  have e : s.take n = (s.take 4).take n := by
    rw [List.take_take, min_eq_left hd.le_four]
  rw [e, List.take_append_drop] at h
  exact h

theorem unquote_appendStringLoop :
    ∀ (v : Nat) (src : List Byte), validLoop v src = true →
      ∀ (f1 f2 : Nat) (tail : List Byte), src.length ≤ f1 → src.length + 1 ≤ f2 →
        unquoteLoop f2 (appendStringLoop f1 src ++ 0x22 :: tail) = some (src, tail) := by
  intro v
  induction v with
  | zero =>
    intro src hv f1 f2 tail _ h2
    cases src with
    | nil =>
      obtain ⟨g, rfl⟩ : ∃ g, f2 = g + 1 := ⟨f2 - 1, by simp at h2; omega⟩
      rw [appendStringLoop_nil]
      rfl
    | cons b rest => simp [validLoop] at hv
  | succ v ih =>
    intro src hv f1 f2 tail h1 h2
    cases src with
    | nil =>
      obtain ⟨g, rfl⟩ : ∃ g, f2 = g + 1 := ⟨f2 - 1, by simp at h2; omega⟩
      rw [appendStringLoop_nil]
      rfl
    | cons b rest =>
      simp only [List.length_cons] at h1 h2
      obtain ⟨g1, rfl⟩ : ∃ g, f1 = g + 1 := ⟨f1 - 1, by omega⟩
      obtain ⟨g2, rfl⟩ : ∃ g, f2 = g + 1 := ⟨f2 - 1, by omega⟩
      rw [validLoop_cons] at hv
      by_cases hne : (DecodeRuneInString (b :: rest)).1 = RuneError ∧
          (DecodeRuneInString (b :: rest)).2 = 1
      · rw [if_pos hne] at hv
        exact absurd hv (by decide)
      rw [if_neg hne] at hv
      rw [appendStringLoop_cons]
      by_cases hb : b.val < 0x80
      · rw [decode_ascii b rest hb] at hv
        simp only [List.drop_succ_cons, List.drop_zero] at hv
        have hrec := ih rest hv g1 g2 tail (by omega) (by omega)
        rw [if_pos hb]
        cases hs : htmlSafeSet b with
        | true =>
          simp only [if_true, List.cons_append]
          rw [unquote_safe b hs, hrec]
          rfl
        | false =>
          simp only [Bool.false_eq_true, if_false, List.append_assoc]
          rw [unquote_escape b hb hs, hrec]
          rfl
      · have h80 : 0x80 ≤ b.val := by omega
        have hd := decode_valid b rest h80 hne
        have h4 := decode_take4 _ _ _ hd
        have hdrop : ((b :: rest).drop (DecodeRuneInString (b :: rest)).2).length
            ≤ rest.length - 1 := by
          have := hd.two_le
          simp only [List.length_drop, List.length_cons]
          omega
        have hrec := ih _ hv g1 g2 tail (by omega) (by omega)
        rw [if_neg hb, h4]
        simp only [hne, if_false]
        by_cases hls : (DecodeRuneInString (b :: rest)).1 = 0x2028 ∨
            (DecodeRuneInString (b :: rest)).1 = 0x2029
        · rw [if_pos hls]
          rw [List.append_assoc, List.cons_append, unquote_u202x _ hls, hrec, hd.encode]
          simp only [consPiece, Option.map_some', List.take_append_drop]
        · rw [if_neg hls]
          rw [List.append_assoc, unquote_multibyte b rest _ _ h80 hd, hrec]
          simp only [consPiece, Option.map_some', List.take_append_drop]

theorem escapeByte_length (b : Byte) : 1 ≤ (escapeByte b).length := by
  unfold escapeByte
  split_ifs <;> simp

theorem appendStringLoop_length :
    ∀ (v : Nat) (src : List Byte), validLoop v src = true →
      ∀ f1 : Nat, src.length ≤ f1 → src.length ≤ (appendStringLoop f1 src).length := by
  intro v
  induction v with
  | zero =>
    intro src hv f1 _
    cases src with
    | nil => simp
    | cons b rest => simp [validLoop] at hv
  | succ v ih =>
    intro src hv f1 h1
    cases src with
    | nil => simp
    | cons b rest =>
      simp only [List.length_cons] at h1
      obtain ⟨g1, rfl⟩ : ∃ g, f1 = g + 1 := ⟨f1 - 1, by omega⟩
      rw [validLoop_cons] at hv
      by_cases hne : (DecodeRuneInString (b :: rest)).1 = RuneError ∧
          (DecodeRuneInString (b :: rest)).2 = 1
      · rw [if_pos hne] at hv
        exact absurd hv (by decide)
      rw [if_neg hne] at hv
      rw [appendStringLoop_cons]
      by_cases hb : b.val < 0x80
      · rw [decode_ascii b rest hb] at hv
        simp only [List.drop_succ_cons, List.drop_zero] at hv
        have hrec := ih rest hv g1 (by omega)
        have he := escapeByte_length b
        rw [if_pos hb]
        split
        · simp only [List.length_cons]; omega
        · simp only [List.length_append, List.length_cons]; omega
      · have h80 : 0x80 ≤ b.val := by omega
        have hd := decode_valid b rest h80 hne
        have h4 := decode_take4 _ _ _ hd
        have h2 := hd.two_le
        have hle := hd.le_len
        have hle4 := hd.le_four
        have hdrop : ((b :: rest).drop (DecodeRuneInString (b :: rest)).2).length
            = rest.length + 1 - (DecodeRuneInString (b :: rest)).2 := by
          simp only [List.length_drop, List.length_cons]
        have hrec := ih _ hv g1 (by omega)
        simp only [List.length_cons] at hle
        rw [if_neg hb, h4]
        simp only [hne, if_false]
        have h5 : (ascii "\\u202").length = 5 := by decide
        split
        · simp only [List.length_append, List.length_cons, h5]; omega
        · simp only [List.length_append, List.length_take, List.length_cons]; omega

theorem parseString_appendString (src tail : List Byte) (hv : ValidString src = true) :
    parseString (appendString src ++ tail) = some (src, tail) := by
  have hlen := appendStringLoop_length src.length src hv src.length (le_refl _)
  have e : appendString src ++ tail =
      0x22 :: (appendStringLoop src.length src ++ 0x22 :: tail) := by
    simp [appendString]
  rw [e]
  have c : (0x22 : Byte).val = 0x22 := by decide
  simp only [parseString, c, if_true]
  exact unquote_appendStringLoop src.length src hv src.length _ tail (le_refl _)
    (by simp only [List.length_append, List.length_cons]; omega)

theorem parseElem_appendString (src tail : List Byte) (hv : ValidString src = true) :
    parseElem (appendString src ++ tail) = some (src, tail) := by
  have hlen := appendStringLoop_length src.length src hv src.length (le_refl _)
  have e : appendString src ++ tail =
      0x22 :: (appendStringLoop src.length src ++ 0x22 :: tail) := by
    simp [appendString]
  rw [e]
  have c : (0x22 : Byte).val = 0x22 := by decide
  simp only [parseElem, c, if_true]
  exact unquote_appendStringLoop src.length src hv src.length _ tail (le_refl _)
    (by simp only [List.length_append, List.length_cons]; omega)

/-! ## JSON objects: decoding inverts encoding of a map of valid UTF-8 strings -/

theorem skipSpace_cons (c : Byte) (rest : List Byte) (h : isSpace c = false) :
    skipSpace (c :: rest) = c :: rest := by
  simp [skipSpace, h]

theorem appendString_head (src tail : List Byte) :
    ∃ Y, appendString src ++ tail = 0x22 :: Y := ⟨_, by simp [appendString]; rfl⟩

theorem encodeMembers_true_cons (kv : Sigma (fun _ : GoString => GoString))
    (rest : List (Sigma (fun _ : GoString => GoString))) :
    encodeMembers true (kv :: rest) =
      appendString kv.1 ++ 0x3A :: appendString kv.2 ++ encodeMembers false rest := by
  simp [encodeMembers]

theorem encodeMembers_false_cons (kv : Sigma (fun _ : GoString => GoString))
    (rest : List (Sigma (fun _ : GoString => GoString))) :
    encodeMembers false (kv :: rest) = 0x2C :: encodeMembers true (kv :: rest) := by
  simp [encodeMembers]

theorem parseMembers_encodeMembers :
    ∀ (l : List (Sigma (fun _ : GoString => GoString))) (kv : Sigma (fun _ : GoString => GoString)),
      (∀ e ∈ kv :: l, ValidString e.1 = true ∧ ValidString e.2 = true) →
      ∀ (fuel : Nat) (acc : StringMap) (tail : List Byte), l.length + 1 ≤ fuel →
        parseMembers fuel (encodeMembers true (kv :: l) ++ 0x7D :: tail) acc =
          some (storeAll acc (kv :: l), tail) := by
  intro l
  induction l with
  | nil =>
    intro kv hv fuel acc tail hf
    obtain ⟨g, rfl⟩ : ∃ g, fuel = g + 1 := ⟨fuel - 1, by omega⟩
    have hk := (hv kv (List.mem_cons_self _ _)).1
    have hval := (hv kv (List.mem_cons_self _ _)).2
    rw [encodeMembers_true_cons]
    simp only [encodeMembers, List.append_nil, List.append_assoc, List.cons_append]
    rw [parseMembers, parseString_appendString _ _ hk]
    simp only []
    rw [skipSpace_cons _ _ (by decide)]
    have c1 : (0x3A : Byte).val = 0x3A := by decide
    simp only [c1, if_true]
    obtain ⟨Y, hY⟩ := appendString_head kv.2 (0x7D :: tail)
    rw [hY, skipSpace_cons _ _ (by decide), ← hY, parseElem_appendString _ _ hval]
    simp only []
    rw [skipSpace_cons _ _ (by decide)]
    have c2 : ¬ (0x7D : Byte).val = 0x2C := by decide
    have c3 : (0x7D : Byte).val = 0x7D := by decide
    simp only [c2, c3, if_true, if_false]
    rfl
  | cons kv2 rest ih =>
    intro kv hv fuel acc tail hf
    simp only [List.length_cons] at hf
    obtain ⟨g, rfl⟩ : ∃ g, fuel = g + 1 := ⟨fuel - 1, by omega⟩
    have hk := (hv kv (List.mem_cons_self _ _)).1
    have hval := (hv kv (List.mem_cons_self _ _)).2
    have hrec := ih kv2 (fun e he => hv e (List.mem_cons_of_mem _ he)) g
      (acc.insert kv.1 kv.2) tail (by omega)
    rw [encodeMembers_true_cons, encodeMembers_false_cons]
    simp only [List.append_assoc, List.cons_append]
    rw [parseMembers, parseString_appendString _ _ hk]
    simp only []
    rw [skipSpace_cons _ _ (by decide)]
    have c1 : (0x3A : Byte).val = 0x3A := by decide
    simp only [c1, if_true]
    obtain ⟨Y, hY⟩ := appendString_head kv.2
      (0x2C :: (encodeMembers true (kv2 :: rest) ++ 0x7D :: tail))
    rw [hY, skipSpace_cons _ _ (by decide), ← hY, parseElem_appendString _ _ hval]
    simp only []
    rw [skipSpace_cons _ _ (by decide)]
    have c2 : (0x2C : Byte).val = 0x2C := by decide
    simp only [c2, if_true]
    obtain ⟨Z, hZ⟩ : ∃ Z, encodeMembers true (kv2 :: rest) ++ 0x7D :: tail = 0x22 :: Z := by
      rw [encodeMembers_true_cons]
      simp only [List.append_assoc]
      exact appendString_head _ _
    rw [hZ, skipSpace_cons _ _ (by decide), ← hZ, hrec]
    rfl

theorem encodeMembers_length (l : List (Sigma (fun _ : GoString => GoString))) :
    ∀ b : Bool, l.length ≤ (encodeMembers b l).length := by
  induction l with
  | nil => intro b; simp
  | cons kv rest ih =>
    intro b
    have := ih false
    simp only [encodeMembers, List.length_append, List.length_cons, appendString]
    omega

theorem jsonUnmarshal_encode (l : List (Sigma (fun _ : GoString => GoString)))
    (hv : ∀ e ∈ l, ValidString e.1 = true ∧ ValidString e.2 = true) :
    jsonUnmarshal (0x7B :: encodeMembers true l ++ [0x7D]) = some (some (storeAll ∅ l)) := by
  cases l with
  | nil => rfl
  | cons kv rest =>
    have hlen := encodeMembers_length (kv :: rest) true
    obtain ⟨Z, hZ⟩ : ∃ Z, encodeMembers true (kv :: rest) ++ [0x7D] = 0x22 :: Z := by
      rw [encodeMembers_true_cons]
      simp only [List.append_assoc]
      exact appendString_head _ _
    have hp := parseMembers_encodeMembers rest kv hv
      (encodeMembers true (kv :: rest) ++ [0x7D]).length ∅ []
      (by simp only [List.length_append, List.length_cons, List.length_nil] at hlen ⊢; omega)
    have c1 : (0x7B : Byte).val = 0x7B := by decide
    have c2 : ¬ (0x22 : Byte).val = 0x7D := by decide
    rw [jsonUnmarshal, List.cons_append, skipSpace_cons _ _ (by decide)]
    simp only [c1, if_true]
    rw [hZ, skipSpace_cons _ _ (by decide)]
    simp only [c2, if_false]
    rw [← hZ, hp]
    rfl

theorem lookup_storeAll (k : GoString) :
    ∀ (l : List (Sigma (fun _ : GoString => GoString))) (acc : StringMap), l.NodupKeys →
      (storeAll acc l).lookup k = if k ∈ l.keys then List.dlookup k l else acc.lookup k := by
  intro l
  induction l with
  | nil => intro acc _; simp [storeAll]
  | cons kv rest ih =>
    intro acc hnd
    obtain ⟨a, b⟩ := kv
    rw [List.nodupKeys_cons] at hnd
    have hrec := ih (acc.insert a b) hnd.2
    have e : storeAll acc (⟨a, b⟩ :: rest) = storeAll (acc.insert a b) rest := rfl
    rw [e, hrec]
    have hmem : k ∈ List.keys (⟨a, b⟩ :: rest) ↔ k = a ∨ k ∈ rest.keys := by
      rw [List.keys_cons, List.mem_cons]
    by_cases hka : k = a
    · subst hka
      have h1 : ¬ k ∈ rest.keys := hnd.1
      rw [if_neg h1, if_pos (hmem.mpr (Or.inl rfl)), AList.lookup_insert, List.dlookup_cons_eq]
    · by_cases hkr : k ∈ rest.keys
      · rw [if_pos hkr, if_pos (hmem.mpr (Or.inr hkr)), List.dlookup_cons_ne _ _ hka]
      · have h2 : ¬ k ∈ List.keys (⟨a, b⟩ :: rest) := fun h => by
          rcases hmem.mp h with h | h
          · exact hka h
          · exact hkr h
        rw [if_neg hkr, if_neg h2, AList.lookup_insert_ne hka]

theorem lookup_storeAll_empty (k : GoString) (l : List (Sigma (fun _ : GoString => GoString)))
    (hnd : l.NodupKeys) : (storeAll ∅ l).lookup k = List.dlookup k l := by
  rw [lookup_storeAll k l ∅ hnd]
  split
  · rfl
  · rename_i h
    rw [AList.lookup_empty]
    exact (List.dlookup_eq_none.mpr h).symm

theorem sortedEntries_perm (m : StringMap) : (sortedEntries m).Perm m.entries :=
  List.perm_insertionSort _ _

theorem jsonUnmarshal_jsonMarshal (m : StringMap)
    (hv : ∀ e ∈ m.entries, ValidString e.1 = true ∧ ValidString e.2 = true) :
    ∃ js parsed, jsonMarshal (some m) = Except.ok js ∧
      jsonUnmarshal js = some (some parsed) ∧ ∀ k, parsed.lookup k = m.lookup k := by
  have hperm := sortedEntries_perm m
  have hnd : (sortedEntries m).NodupKeys := (List.perm_nodupKeys hperm).mpr m.nodupKeys
  refine ⟨_, storeAll ∅ (sortedEntries m), rfl, ?_, ?_⟩
  · exact jsonUnmarshal_encode _ (fun e he => hv e (hperm.subset he))
  · intro k
    rw [lookup_storeAll_empty k _ hnd]
    exact List.perm_dlookup k hnd m.nodupKeys hperm

/-! ## The metadata round trip -/

/-- Counterexample to C5 as stated: for the mapping `k ↦ 0xFF` the envelope's metadata is
`{"k":"\ufffd"}`, which parses to `k ↦ EF BF BD`, not to the original value. -/
theorem C5_invalid_utf8_counterexample :
    NewBlobFromReader noSlack invalidUtf8Builder [] (ascii "x") =
      some (Except.ok
        { Name := ascii "x", ContentType := ascii "text/plain", ContentEncoding := [],
          ContentTransferEncoding := ascii "base64", Body := [],
          Metadata := some (ascii "\x7b\"k\":\"\\ufffd\"\x7d"),
          ContentLength := some 0, LastModified := none }, []) ∧
    (jsonUnmarshal (ascii "\x7b\"k\":\"\\ufffd\"\x7d")).map (mapLookup (ascii "k")) =
      some (some [0xEF, 0xBF, 0xBD]) ∧
    invalidUtf8Metadata.lookup (ascii "k") = some [0xFF] ∧
    (some [0xEF, 0xBF, 0xBD] : Option GoString) ≠ some [0xFF] :=
  ⟨by rfl, by rfl, by rfl, by decide⟩

/-- C5 (amended): for a non-empty mapping `m` whose keys and values are valid UTF-8, the
envelope's `metadata` is a JSON object that parses back to a mapping with the same keys and
the same value for every key as `m`. -/
theorem C5_metadata_round_trip_valid_utf8 (slack : Nat → Nat) (b : BlobBuilder)
    (r r1 : Reader) (name : GoString) (blob : Blob) (m : StringMap)
    (hm : b.Metadata = some m) (hne : 0 < m.entries.length)
    (hvalid : ∀ e ∈ m.entries, ValidString e.1 = true ∧ ValidString e.2 = true)
    (h : NewBlobFromReader slack b r name = some (Except.ok blob, r1)) :
    ∃ js parsed, blob.Metadata = some js ∧ jsonUnmarshal js = some (some parsed) ∧
      (∀ k, parsed.lookup k = m.lookup k) ∧ parsed.entries.Perm m.entries := by
  obtain ⟨_, _, hblob⟩ := NewBlobFromReader_ok_inv slack b r r1 name blob h
  obtain ⟨js, parsed, hjs, hparse, hlook⟩ := jsonUnmarshal_jsonMarshal m hvalid
  have hlen : mapLen b.Metadata > 0 := by rw [hm]; exact hne
  refine ⟨js, parsed, ?_, hparse, hlook, ?_⟩
  · rw [hblob, hm]
    rw [hm] at hlen
    simp only [if_pos hlen, hjs, Except.toOption]
  · apply List.lookup_ext parsed.nodupKeys m.nodupKeys
    intro x y
    have := hlook x
    simp only [AList.lookup] at this
    rw [this]

/-- Witness for C5 (amended): the mapping of `TestBlobBuilder_WithMetadata`. -/
theorem C5_metadata_round_trip_valid_utf8_witness :
    metadataBuilder.Metadata = some testMetadata ∧ 0 < testMetadata.entries.length ∧
    (∀ e ∈ testMetadata.entries, ValidString e.1 = true ∧ ValidString e.2 = true) ∧
    NewBlobFromReader noSlack metadataBuilder [ReadStep.data (ascii "data")] (ascii "file.bin") =
      some (Except.ok
        { Name := ascii "file.bin", ContentType := ascii "application/octet-stream",
          ContentEncoding := [], ContentTransferEncoding := ascii "base64",
          Body := ascii "ZGF0YQ==",
          Metadata := some (ascii "\x7b\"source\":\"test\",\"user\":\"gemini\"\x7d"),
          ContentLength := some 4, LastModified := none }, []) ∧
    ∃ js parsed, some (ascii "\x7b\"source\":\"test\",\"user\":\"gemini\"\x7d") = some js ∧
      jsonUnmarshal js = some (some parsed) ∧
      (∀ k, parsed.lookup k = testMetadata.lookup k) ∧
      parsed.entries.Perm testMetadata.entries :=
  ⟨by rfl, by decide, by decide, by rfl,
    C5_metadata_round_trip_valid_utf8 noSlack metadataBuilder [ReadStep.data (ascii "data")] []
      (ascii "file.bin") _ testMetadata (by rfl) (by decide) (by decide) (by rfl)⟩

/-! ## The metadata flag -/

theorem Index_eq_none (sep : Byte) : ∀ s : GoString, Index s sep = none ↔ sep ∉ s := by
  intro s
  induction s with
  | nil => simp [Index]
  | cons b rest ih =>
    by_cases hb : b = sep
    · simp [Index, hb]
    · have hb2 : ¬ sep = b := fun h => hb h.symm
      simp [Index, hb, hb2, ih]

theorem Index_eq_some (sep : Byte) :
    ∀ (s : GoString) (m : Nat), Index s sep = some m →
      s = s.take m ++ sep :: s.drop (m + 1) ∧ sep ∉ s.take m := by
  intro s
  induction s with
  | nil => intro m h; simp [Index] at h
  | cons b rest ih =>
    intro m h
    by_cases hb : b = sep
    · simp only [Index, hb, if_true, Option.some.injEq] at h
      subst h
      subst hb
      simp
    · simp only [Index, hb, if_false, Option.map_eq_some'] at h
      obtain ⟨i, hi, rfl⟩ := h
      obtain ⟨h1, h2⟩ := ih i hi
      have hb2 : ¬ sep = b := fun h => hb h.symm
      refine ⟨?_, ?_⟩
      · simp only [List.take_succ_cons, List.drop_succ_cons, List.cons_append]
        rw [← h1]
      · simp only [List.take_succ_cons, List.mem_cons, not_or]
        exact ⟨hb2, h2⟩

theorem SplitN_two_absent (s : GoString) (sep : Byte) (h : sep ∉ s) :
    SplitN s sep 2 = [s] := by
  have hi := (Index_eq_none sep s).mpr h
  cases s with
  | nil => rfl
  | cons b rest =>
    have : ¬ 2 > (b :: rest).length + 1 := by simp only [List.length_cons]; omega
    simp only [SplitN, this, if_false, genSplitLoop, hi]
    rfl

theorem SplitN_two_present (s : GoString) (sep : Byte) (h : sep ∈ s) :
    ∃ k v, s = k ++ sep :: v ∧ sep ∉ k ∧ SplitN s sep 2 = [k, v] := by
  cases hi : Index s sep with
  | none => exact absurd h ((Index_eq_none sep s).mp hi)
  | some m =>
    obtain ⟨h1, h2⟩ := Index_eq_some sep s m hi
    refine ⟨s.take m, s.drop (m + 1), h1, h2, ?_⟩
    have hlen : ¬ 2 > s.length + 1 := by
      have : 0 < s.length := List.length_pos_of_mem h
      omega
    simp only [SplitN, hlen, if_false, genSplitLoop, hi]
    rfl

/-- C12: `metadataFlag.Set(value)` returns an error exactly when `value` contains no `=`;
the error is `invalid metadata format; expected key=value`, and the mapping is then left
as it was. -/
theorem C12_Set_rejects_iff_no_equals (m : StringMap) (value : GoString) :
    ((metadataFlag.Set m value).1 ≠ none ↔ (0x3D : Byte) ∉ value) ∧
    ((0x3D : Byte) ∉ value →
      metadataFlag.Set m value =
        (some (ascii "invalid metadata format; expected key=value"), m)) := by
  by_cases h : (0x3D : Byte) ∈ value
  · obtain ⟨k, v, _, _, hs⟩ := SplitN_two_present value 0x3D h
    have hset : metadataFlag.Set m value = (none, m.insert k v) := by
      simp only [metadataFlag.Set, hs]
      rfl
    refine ⟨?_, fun hn => absurd h hn⟩
    rw [hset]
    simp [h]
  · have hs := SplitN_two_absent value 0x3D h
    have hset : metadataFlag.Set m value =
        (some (ascii "invalid metadata format; expected key=value"), m) := by
      simp only [metadataFlag.Set, hs]
      rfl
    refine ⟨?_, fun _ => hset⟩
    rw [hset]
    simp [h]

/-- Witness for C12: the flag value `user` is rejected and the mapping stays as it was. -/
theorem C12_Set_rejects_iff_no_equals_witness :
    (0x3D : Byte) ∉ ascii "user" ∧
    metadataFlag.Set testMetadata (ascii "user") =
      (some (ascii "invalid metadata format; expected key=value"), testMetadata) :=
  ⟨by decide, (C12_Set_rejects_iff_no_equals testMetadata (ascii "user")).2 (by decide)⟩

/-- C13: for a `value` that contains `=`, `metadataFlag.Set(value)` returns no error and
splits at the first `=` only: with `k` the text before it (free of `=`) and `v` everything
after it, the mapping becomes the previous one with `k` bound to `v`; `k` now maps to `v`
whatever it was bound to before, every other key keeps its binding, and no key is lost. -/
theorem C13_Set_splits_at_first_equals (m : StringMap) (value : GoString)
    (h : (0x3D : Byte) ∈ value) :
    ∃ k v : GoString, value = k ++ 0x3D :: v ∧ (0x3D : Byte) ∉ k ∧
      metadataFlag.Set m value = (none, m.insert k v) ∧
      (metadataFlag.Set m value).2.lookup k = some v ∧
      (∀ k1, k1 ≠ k → (metadataFlag.Set m value).2.lookup k1 = m.lookup k1) ∧
      (∀ k1, k1 ∈ m → k1 ∈ (metadataFlag.Set m value).2) := by
  obtain ⟨k, v, hval, hk, hs⟩ := SplitN_two_present value 0x3D h
  have hset : metadataFlag.Set m value = (none, m.insert k v) := by
    simp only [metadataFlag.Set, hs]
    rfl
  refine ⟨k, v, hval, hk, hset, ?_, ?_, ?_⟩
  · rw [hset]
    exact AList.lookup_insert m
  · intro k1 hk1
    rw [hset]
    exact AList.lookup_insert_ne hk1
  · intro k1 hk1
    rw [hset]
    exact (AList.mem_insert m).mpr (Or.inr hk1)

/-- Witness for C13: `user=a=b` rebinds `user` to `a=b` and keeps `source`. -/
theorem C13_Set_splits_at_first_equals_witness :
    (0x3D : Byte) ∈ ascii "user=a=b" ∧
    ∃ k v : GoString, ascii "user=a=b" = k ++ 0x3D :: v ∧ (0x3D : Byte) ∉ k ∧
      metadataFlag.Set testMetadata (ascii "user=a=b") = (none, testMetadata.insert k v) ∧
      (metadataFlag.Set testMetadata (ascii "user=a=b")).2.lookup k = some v ∧
      (∀ k1, k1 ≠ k →
        (metadataFlag.Set testMetadata (ascii "user=a=b")).2.lookup k1 =
          testMetadata.lookup k1) ∧
      (∀ k1, k1 ∈ testMetadata → k1 ∈ (metadataFlag.Set testMetadata (ascii "user=a=b")).2) :=
  ⟨by decide, C13_Set_splits_at_first_equals testMetadata (ascii "user=a=b") (by decide)⟩

/-- The run behind the witness for C13, evaluated: two flags for the same key and one for
another accumulate into one mapping, the later binding of `user` winning. -/
theorem Set_accumulates_run :
    ((metadataFlag.Set (metadataFlag.Set (metadataFlag.Set ∅ (ascii "user=x")).2
      (ascii "source=test")).2 (ascii "user=a=b")).2.lookup (ascii "user"),
     (metadataFlag.Set (metadataFlag.Set (metadataFlag.Set ∅ (ascii "user=x")).2
      (ascii "source=test")).2 (ascii "user=a=b")).2.lookup (ascii "source")) =
    (some (ascii "a=b"), some (ascii "test")) := by
  rfl

/-! ## Claims about the serialised keys, the limit and independence -/

/-- What the struct encoder has written when it succeeds: every field that is not skipped
has a member with its key and the encoding of its value. -/
theorem encodeFields_member (compact : List Byte → Except GoError (List Byte)) :
    ∀ (fs : List Field) (members : List (GoString × List Byte)),
      encodeFields compact fs = Except.ok members →
      ∀ f ∈ fs, (f.omitEmpty && isEmptyValue f.value) = false →
        ∃ v, encodeValue compact f.value = Except.ok v ∧ (f.name, v) ∈ members := by
  intro fs
  induction fs with
  | nil => intro members _ f hf; simp at hf
  | cons g rest ih =>
    intro members h f hf hkeep
    rw [encodeFields] at h
    by_cases hskip : (g.omitEmpty && isEmptyValue g.value) = true
    · rw [if_pos hskip] at h
      rcases List.mem_cons.mp hf with rfl | hf'
      · rw [hskip] at hkeep; exact absurd hkeep (by decide)
      · exact ih members h f hf' hkeep
    · rw [if_neg hskip] at h
      cases hv : encodeValue compact g.value with
      | error err => rw [hv] at h; simp at h
      | ok v =>
        rw [hv] at h
        cases hr : encodeFields compact rest with
        | error err => rw [hr] at h; simp at h
        | ok ms =>
          rw [hr] at h
          simp only [Except.ok.injEq] at h
          subst h
          rcases List.mem_cons.mp hf with rfl | hf'
          · exact ⟨v, hv, List.mem_cons_self _ _⟩
          · obtain ⟨w, hw, hmem⟩ := ih ms hr f hf' hkeep
            exact ⟨w, hw, List.mem_cons_of_mem _ hmem⟩

/-- The keys that the struct encoder has written when it succeeds: those of the fields that
are not skipped, in order. -/
theorem encodeFields_keys (compact : List Byte → Except GoError (List Byte)) :
    ∀ (fs : List Field) (members : List (GoString × List Byte)),
      encodeFields compact fs = Except.ok members →
      members.map Prod.fst =
        (fs.filter (fun f => !(f.omitEmpty && isEmptyValue f.value))).map Field.name := by
  intro fs
  induction fs with
  | nil => intro members h; simp [encodeFields] at h; subst h; rfl
  | cons g rest ih =>
    intro members h
    rw [encodeFields] at h
    by_cases hskip : (g.omitEmpty && isEmptyValue g.value) = true
    · rw [if_pos hskip] at h
      rw [List.filter_cons, hskip]
      exact ih members h
    · rw [if_neg hskip] at h
      have hskip2 : (g.omitEmpty && isEmptyValue g.value) = false := by
        simpa using hskip
      cases hv : encodeValue compact g.value with
      | error err => rw [hv] at h; simp at h
      | ok v =>
        rw [hv] at h
        cases hr : encodeFields compact rest with
        | error err => rw [hr] at h; simp at h
        | ok ms =>
          rw [hr] at h
          simp only [Except.ok.injEq] at h
          subst h
          rw [List.filter_cons, hskip2]
          simp only [Bool.not_false, if_true, List.map_cons, ih ms hr]

/-- When `json.Marshal` succeeds on an envelope, the keys of the object are
`Blob.jsonKeys`. -/
theorem marshalBlob_keys (compact : List Byte → Except GoError (List Byte)) (blob : Blob)
    (members : List (GoString × List Byte))
    (h : marshalBlob compact blob = Except.ok members) :
    members.map Prod.fst = blob.jsonKeys := by
  rw [encodeFields_keys compact _ _ h]
  simp only [Blob.fields, Blob.jsonKeys, List.filter_cons, List.filter_nil, isEmptyValue,
    Bool.false_and, Bool.true_and, Bool.not_false, if_true]
  by_cases h1 : (blob.Metadata.getD []).length = 0 <;>
    by_cases h2 : blob.ContentLength.isNone = true <;>
    by_cases h3 : blob.LastModified.isNone = true <;>
    simp [h1, h2, h3]


/-- Counterexample to C11 as stated: the builder hands on a last-modified time in the year
10000, and `json.Marshal` of the envelope it returns gives an error, not an object. -/
theorem C11_year_out_of_range_counterexample :
    NewBlobFromReader noSlack farFutureBuilder [] (ascii "x") =
      some (Except.ok farFutureBlob, []) ∧
    marshalBlob keepText farFutureBlob =
      Except.error
        (GoError.message (ascii "Time.MarshalJSON: year outside of range [0,9999]")) :=
  ⟨by rfl, by rfl⟩

/-- That failure does not depend on what `compact` does. -/
theorem farFutureBlob_not_serialised (compact : List Byte → Except GoError (List Byte)) :
    marshalBlob compact farFutureBlob =
      Except.error
        (GoError.message (ascii "Time.MarshalJSON: year outside of range [0,9999]")) := by
  rfl

/-- C11 (amended): whenever `json.Marshal` succeeds on an envelope returned by
`NewBlobFromReader`, the object has the six keys `name`, `content_type`, `content_encoding`,
`content_transfer_encoding`, `body` and `content_length`; `content_encoding` carries the
quoted content encoding, the empty string literal when that is empty, and `content_length`
carries the decimal text of the number `n` of bytes read, which is `0` when nothing was
read. -/
theorem C11_six_keys_when_serialised (compact : List Byte → Except GoError (List Byte))
    (slack : Nat → Nat) (b : BlobBuilder) (r r1 : Reader) (name : GoString) (blob : Blob)
    (members : List (GoString × List Byte))
    (h : NewBlobFromReader slack b r name = some (Except.ok blob, r1))
    (hm : marshalBlob compact blob = Except.ok members) :
    (∀ k ∈ [ascii "name", ascii "content_type", ascii "content_encoding",
        ascii "content_transfer_encoding", ascii "body", ascii "content_length"],
      k ∈ members.map Prod.fst) ∧
    (ascii "content_encoding", appendString b.ContentEncoding) ∈ members ∧
    (b.ContentEncoding = [] → (ascii "content_encoding", ascii "\"\"") ∈ members) ∧
    ∃ n : Nat, r.pending.length = n + r1.pending.length ∧
      (ascii "content_length", formatInt (n : Int)) ∈ members ∧
      (n = 0 → (ascii "content_length", ascii "0") ∈ members) := by
  obtain ⟨_, hr1, hblob⟩ := NewBlobFromReader_ok_inv slack b r r1 name blob h
  have hcl : blob.ContentLength = some ((r.drain b.MaxBytes.toNat).1.1.length : Int) := by
    rw [hblob]
  have hce : blob.ContentEncoding = b.ContentEncoding := by rw [hblob]
  have hmember := encodeFields_member compact blob.fields members hm
  have key : ∀ f ∈ blob.fields, (f.omitEmpty && isEmptyValue f.value) = false →
      f.name ∈ members.map Prod.fst := by
    intro f hf hkeep
    obtain ⟨v, _, hv⟩ := hmember f hf hkeep
    exact List.mem_map.mpr ⟨(f.name, v), hv, rfl⟩
  have hlenField : Field.mk (ascii "content_length") true
      (FieldValue.int64Ptr blob.ContentLength) ∈ blob.fields := by
    simp [Blob.fields]
  have hlenKeep : (true && isEmptyValue (FieldValue.int64Ptr blob.ContentLength)) = false := by
    rw [hcl]; rfl
  have hencField : Field.mk (ascii "content_encoding") false
      (FieldValue.str blob.ContentEncoding) ∈ blob.fields := by
    simp [Blob.fields]
  have hlenMem : (ascii "content_length",
      formatInt ((r.drain b.MaxBytes.toNat).1.1.length : Int)) ∈ members := by
    obtain ⟨v, hv, hmem⟩ := hmember _ hlenField hlenKeep
    simp only [hcl, encodeValue, Except.ok.injEq] at hv
    rw [hv]
    exact hmem
  have hencMem : (ascii "content_encoding", appendString b.ContentEncoding) ∈ members := by
    obtain ⟨v, hv, hmem⟩ := hmember _ hencField rfl
    simp only [hce, encodeValue, Except.ok.injEq] at hv
    rw [hv]
    exact hmem
  refine ⟨?_, hencMem, ?_, ?_⟩
  · intro k hk
    simp only [List.mem_cons, List.mem_nil_iff, or_false] at hk
    rcases hk with rfl | rfl | rfl | rfl | rfl | rfl
    · exact key (Field.mk (ascii "name") false (FieldValue.str blob.Name)) (by simp [Blob.fields]) rfl
    · exact key (Field.mk (ascii "content_type") false (FieldValue.str blob.ContentType)) (by simp [Blob.fields]) rfl
    · exact key _ hencField rfl
    · exact key (Field.mk (ascii "content_transfer_encoding") false
        (FieldValue.str blob.ContentTransferEncoding)) (by simp [Blob.fields]) rfl
    · exact key (Field.mk (ascii "body") false (FieldValue.str blob.Body)) (by simp [Blob.fields]) rfl
    · exact key _ hlenField hlenKeep
  · intro hempty
    rw [hempty] at hencMem
    exact hencMem
  · have hp := drain_pending r b.MaxBytes.toNat
    refine ⟨(r.drain b.MaxBytes.toNat).1.1.length, ?_, hlenMem, ?_⟩
    · rw [hr1]
      conv_lhs => rw [hp]
      rw [List.length_append]
    · intro h0
      rw [h0] at hlenMem
      exact hlenMem

/-- Witness for C11 (amended): an empty stream and an empty content encoding. -/
theorem C11_six_keys_when_serialised_witness :
    NewBlobFromReader noSlack plainTextBuilder [] (ascii "empty.txt") =
      some (Except.ok emptyBlob, []) ∧
    marshalBlob keepText emptyBlob = Except.ok emptyBlobMembers ∧
    ((∀ k ∈ [ascii "name", ascii "content_type", ascii "content_encoding",
        ascii "content_transfer_encoding", ascii "body", ascii "content_length"],
      k ∈ emptyBlobMembers.map Prod.fst) ∧
    (ascii "content_encoding", appendString plainTextBuilder.ContentEncoding)
      ∈ emptyBlobMembers ∧
    (plainTextBuilder.ContentEncoding = [] →
      (ascii "content_encoding", ascii "\"\"") ∈ emptyBlobMembers) ∧
    ∃ n : Nat, (Reader.pending []).length = n + (Reader.pending []).length ∧
      (ascii "content_length", formatInt (n : Int)) ∈ emptyBlobMembers ∧
      (n = 0 → (ascii "content_length", ascii "0") ∈ emptyBlobMembers)) :=
  ⟨by rfl, by rfl,
    C11_six_keys_when_serialised keepText noSlack plainTextBuilder [] [] (ascii "empty.txt")
      emptyBlob emptyBlobMembers (by rfl) (by rfl)⟩

/-- C14: with `MaxBytes ≤ 0`, on any stream, also one whose first read would report an
error, `NewBlobFromReader` succeeds and leaves the stream as it was; the envelope has an
empty `body` and `content_length` 0. -/
theorem C14_nonpositive_limit_reads_nothing (slack : Nat → Nat) (b : BlobBuilder)
    (r : Reader) (name : GoString) (h : b.MaxBytes ≤ 0) :
    ∃ blob, NewBlobFromReader slack b r name = some (Except.ok blob, r) ∧
      blob.Body = [] ∧ blob.ContentLength = some 0 := by
  have h0 : b.MaxBytes.toNat = 0 := by omega
  have hd : r.drain b.MaxBytes.toNat = (([], none), r) := by rw [h0, drain_zero]
  have herr : (r.drain b.MaxBytes.toNat).1.2 = none := by rw [hd]
  have hrun := NewBlobFromReader_ok slack b r name herr
  rw [hd] at hrun
  exact ⟨_, hrun, rfl, rfl⟩

/-- Witness for C14: limit -1 on a stream whose first read fails. -/
theorem C14_nonpositive_limit_reads_nothing_witness :
    negativeLimitBuilder.MaxBytes ≤ 0 ∧
    ∃ blob, NewBlobFromReader noSlack negativeLimitBuilder brokenStream (ascii "x") =
        some (Except.ok blob, brokenStream) ∧
      blob.Body = [] ∧ blob.ContentLength = some 0 :=
  ⟨by decide, C14_nonpositive_limit_reads_nothing noSlack negativeLimitBuilder brokenStream
    (ascii "x") (by decide)⟩

/-- The run behind the witness for C14, evaluated. -/
theorem brokenStream_run :
    NewBlobFromReader noSlack negativeLimitBuilder brokenStream (ascii "x") =
      some (Except.ok nothingReadBlob, brokenStream) := by
  rfl

/-- C15: two successful calls on streams with the same content and builders with the same
`MaxBytes` give the same `body` and the same `content_length`, whatever the names, content
types, content encodings, metadata, last-modified values, the chunking of the streams and
the growth of the read buffer. -/
theorem C15_body_depends_on_bytes_and_limit_only (slackA slackB : Nat → Nat)
    (bA bB : BlobBuilder) (rA rB rA1 rB1 : Reader) (nameA nameB : GoString)
    (blobA blobB : Blob) (hcontent : rA.content = rB.content)
    (hmax : bA.MaxBytes = bB.MaxBytes)
    (hA : NewBlobFromReader slackA bA rA nameA = some (Except.ok blobA, rA1))
    (hB : NewBlobFromReader slackB bB rB nameB = some (Except.ok blobB, rB1)) :
    blobA.Body = blobB.Body ∧ blobA.ContentLength = blobB.ContentLength := by
  obtain ⟨_, _, hblobA⟩ := NewBlobFromReader_ok_inv slackA bA rA rA1 nameA blobA hA
  obtain ⟨_, _, hblobB⟩ := NewBlobFromReader_ok_inv slackB bB rB rB1 nameB blobB hB
  have hd : (rA.drain bA.MaxBytes.toNat).1.1 = (rB.drain bB.MaxBytes.toNat).1.1 := by
    rw [drain_data, drain_data, hcontent, hmax]
  rw [hblobA, hblobB]
  simp only [hd, and_self]

/-- Witness for C15: `typedBuilder` (content encoding `gzip`, metadata, a timestamp, the
stream in two pieces) and `bareBuilder` (none of these, the stream in one piece). -/
theorem C15_body_depends_on_bytes_and_limit_only_witness :
    Reader.content typedStream = Reader.content [ReadStep.data (ascii "some typed data")] ∧
    typedBuilder.MaxBytes = bareBuilder.MaxBytes ∧
    NewBlobFromReader noSlack typedBuilder typedStream (ascii "typed.txt") =
      some (Except.ok typedBlob, typedStreamAfter) ∧
    NewBlobFromReader (fun c => c) bareBuilder [ReadStep.data (ascii "some typed data")]
        (ascii "bare.bin") =
      some (Except.ok bareBlob, [ReadStep.data (ascii " typed data")]) ∧
    (typedBlob.Body = bareBlob.Body ∧ typedBlob.ContentLength = bareBlob.ContentLength) :=
  ⟨by decide, by decide, by rfl, by rfl,
    C15_body_depends_on_bytes_and_limit_only noSlack (fun c => c) typedBuilder bareBuilder
      typedStream [ReadStep.data (ascii "some typed data")] typedStreamAfter
      [ReadStep.data (ascii " typed data")] (ascii "typed.txt") (ascii "bare.bin")
      typedBlob bareBlob (by decide) (by decide) (by rfl) (by rfl)⟩

end Blob2Json
